import Mathlib

/-!
Shallow embedding of the IMBE half-rate vocoder decoder (imbe.rs) and proofs
about its per-frame synthesis pipeline.

Machine `u32`/`u8` values are embedded as `ℕ` with explicit truncations where
the source casts; `f32` arithmetic is embedded as exact arithmetic over `ℚ`
where the source only adds, multiplies and compares (error tracking, the
synthesis window table) and over `ℝ` where the source uses transcendental
functions (`cos`, `log2`, `exp2`, `sqrt`, `powf`).  Fallible source code
(`unwrap`, `assert!`, slice indexing) is embedded with `Option`.

Two source files declared by `lib.rs` (`allocs.rs` with the per-L bit
allocation table, and `gain.rs` with the gain vector-quantizer) are not
present in the source tree; they are modelled from the specification where
needed, as documented on the corresponding definitions.
-/

set_option maxRecDepth 8000

namespace Imbe

/-- Samples per voiced/unvoiced frame (consts.rs `SAMPLES_PER_FRAME`). -/
def SAMPLES_PER_FRAME : ℕ := 160

/-- Maximum number of harmonics (consts.rs `MAX_HARMONICS`). -/
def MAX_HARMONICS : ℕ := 56

/-- The eight prioritized bit-vector chunks u₀..u₇ (frame.rs `Chunks`). -/
def Chunks : Type := Fin 8 → ℕ

/-- The seven per-chunk error counts ϵ₀..ϵ₆ (frame.rs `Errors`). -/
def ErrorCounts : Type := Fin 7 → ℕ

/-- Basic parameters of the current frame (params.rs `BaseParams`). -/
structure BaseParams where
  fundamental : ℝ
  harmonics : ℕ
  bands : ℕ

/-- params.rs `BaseParams::from_float`/`new`, embedded over exact reals: the
fundamental ω₀ = 4π/(b₀+39.5), the harmonic count L (two floors, the outer one
being the `as u32` truncation of a non-negative value) and the band count
K = min((L+2)/3, 12). -/
noncomputable def BaseParams.new (period : ℕ) : BaseParams :=
  let f : ℝ := 4 * Real.pi / ((period : ℝ) + 39.5)
  let h : ℕ := ⌊(0.9254 : ℝ) * (⌊Real.pi / f + 0.25⌋₊ : ℝ)⌋₊
  { fundamental := f
    harmonics := h
    bands := min ((h + 2) / 3) 12 }

/-- params.rs `BaseParams::default`: the cold-start parameters. -/
noncomputable def BaseParams.defaults : BaseParams :=
  { fundamental := 0.02985 * Real.pi
    harmonics := 30
    bands := 10 }

/-- Computable characterization of the harmonic count: the two nested real
floors of `BaseParams.new` reduce to natural division. -/
def harmonicsNat (period : ℕ) : ℕ :=
  9254 * ((2 * period + 81) / 8) / 10000

/-- descramble.rs `period`: the 8-bit quantized period b₀, concatenating the
top six bits of u₀ (a 12-bit chunk) with bits 2 and 1 of u₇; the `as u8`
casts are the `% 256` truncations. -/
def period (chunks : Chunks) : ℕ :=
  ((chunks 0 >>> 4) % 256) &&& 0b11111100 ||| ((chunks 7 >>> 1) % 256) &&& 0b11

/-- descramble.rs `Bootstrap`. -/
inductive Bootstrap where
  | Period (p : ℕ)
  | Silence
  | Invalid
deriving DecidableEq

/-- descramble.rs `Bootstrap::new`: classify b₀ as a valid period (0..=207),
silence (216..=219), or invalid. -/
def Bootstrap.new (chunks : Chunks) : Bootstrap :=
  let p := period chunks
  if p ≤ 207 then Bootstrap.Period p
  else if 216 ≤ p ∧ p ≤ 219 then Bootstrap.Silence
  else Bootstrap.Invalid

/-- descramble.rs `gain_idx`: the 6-bit gain index b₂ from bits 5..3 of u₀,
the two-bit fragment, and bit 3 of u₇. -/
def gain_idx (chunks : Chunks) (idxPart : ℕ) : ℕ :=
  chunks 0 &&& 0b111000 ||| idxPart <<< 1 ||| (chunks 7 >>> 3) &&& 1

/-- scan.rs `ScanSep`: the three fields split out of the 22-bit concatenation
of u₄ and u₅. -/
structure ScanSep where
  voiced : ℕ
  idx_part : ℕ
  scanned : ℕ

/-- scan.rs `ScanSep::new`: K MSBs are the band voicing vector, the next two
bits are the middle of the gain index, and the low 20−K bits feed the scan
(the source masks with `!0 >> (12 + bands)` on a 32-bit word). -/
def ScanSep.new (chunks : Chunks) (params : BaseParams) : ScanSep :=
  let parts := chunks 4 <<< 11 ||| chunks 5
  { voiced := parts >>> (22 - params.bands)
    idx_part := (parts >>> (20 - params.bands)) &&& 0b11
    scanned := parts &&& (2 ^ (32 - (12 + params.bands)) - 1) }

/-- scan.rs `ScanChunks`: the seven (chunk, bit-count) pairs visited by the
scanning procedure, in order. -/
def scanChunks (chunks : Chunks) (sep : ℕ) (params : BaseParams) : List (ℕ × ℕ) :=
  [ (chunks 0 &&& 0b111, 3)
  , (chunks 1, 12)
  , (chunks 2, 12)
  , (chunks 3, 12)
  , (sep, 20 - params.bands)
  , (chunks 6, 11)
  , (chunks 7 >>> 4, 3) ]

/-- scan.rs `ScanBits` restricted to one pair: the `r` bits of `c`, most
significant first (the source moves the bits to the MSB of a 32-bit word
and shifts them off one by one, which discards bits above position r−1). -/
def chunkBits (c r : ℕ) : List ℕ :=
  (List.range r).map fun j => (c >>> (r - 1 - j)) &&& 1

/-- scan.rs `ScanBits`: the whole bit scan as a list of bits. -/
def scanBits (chunks : Chunks) (sep : ℕ) (params : BaseParams) : List ℕ :=
  (scanChunks chunks sep params).flatMap fun p => chunkBits p.1 p.2

/-- One bit-level of descramble.rs `QuantizedAmplitudes::new`: visit the
(width, amplitude) pairs in ascending order and, whenever the width exceeds
the level, shift the next scan bit onto the amplitude's LSB; `none` embeds a
failed `scan.next().unwrap()`. -/
def drawLevel (idx : ℕ) :
    List (ℕ × ℕ) → List ℕ → Option (List (ℕ × ℕ) × List ℕ)
  | [], stream => some ([], stream)
  | (w, a) :: rest, stream =>
    if w ≤ idx then
      (drawLevel idx rest stream).map fun r => ((w, a) :: r.1, r.2)
    else
      match stream with
      | [] => none
      | b :: s => (drawLevel idx rest s).map fun r => ((w, a <<< 1 ||| b) :: r.1, r.2)

/-- The outer loop of descramble.rs `QuantizedAmplitudes::new`, iterating the
bit levels MSB to LSB. -/
def drawLevels :
    List ℕ → List (ℕ × ℕ) → List ℕ → Option (List (ℕ × ℕ) × List ℕ)
  | [], pairs, stream => some (pairs, stream)
  | idx :: idxs, pairs, stream =>
    match drawLevel idx pairs stream with
    | none => none
    | some (p, s) => drawLevels idxs p s

/-- descramble.rs `QuantizedAmplitudes::new`: reconstruct b₃..b_(L+1) from the
bit scan, given the allocation's per-amplitude widths and maximum width.
`none` embeds either a panic on an out-of-range `bits[i]` access, a failed
draw, or the trailing `assert!(scan.next().is_none())`. -/
def QuantizedAmplitudes.new (scan : List ℕ) (allocBits : List ℕ) (maxBits : ℕ)
    (params : BaseParams) : Option (List ℕ) :=
  if allocBits.length < params.harmonics - 1 then none
  else
    let pairs := (allocBits.take (params.harmonics - 1)).map fun w => (w, 0)
    match drawLevels (List.range maxBits).reverse pairs scan with
    | none => none
    | some (pairs', rest) =>
      if rest = [] then some (pairs'.map Prod.snd) else none

/-- Number of draws one bit level performs, as a function of the widths. -/
def levelDraws (ws : List ℕ) (idx : ℕ) : ℕ :=
  ws.countP fun w => decide (idx < w)

/-- Voiced/unvoiced decisions (descramble.rs `VoiceDecisions`): the current
frame parameters together with the derived per-harmonic bitmap, whose LSB is
harmonic L. -/
structure VoiceDecisions where
  params : BaseParams
  voiced : ℕ

/-- The fold inside descramble.rs `gen_harmonics_bitmap`, iterating the band
indices from K−1 down to 0 and widening each band bit to three harmonics. -/
def genAux (v : ℕ) : List ℕ → ℕ → ℕ
  | [], acc => acc
  | i :: rest, acc => genAux v rest ((acc <<< 3) ||| (if (v >>> i) &&& 1 = 1 then 7 else 0))

/-- descramble.rs `gen_harmonics_bitmap`: widen the K band bits to 3K harmonic
bits, then strip the extra harmonics of a final band covering fewer than 3. -/
def gen_harmonics_bitmap (voiced : ℕ) (params : BaseParams) : ℕ :=
  let bits := genAux voiced ((List.range params.bands).reverse) 0
  let rem := params.harmonics % 3
  if rem = 0 then bits else bits >>> (3 - rem)

/-- descramble.rs `VoiceDecisions::new`. -/
def VoiceDecisions.new (voiced : ℕ) (params : BaseParams) : VoiceDecisions :=
  { params := params, voiced := gen_harmonics_bitmap voiced params }

/-- descramble.rs `VoiceDecisions::mask`: the bit position of harmonic l. -/
def VoiceDecisions.mask (self : VoiceDecisions) (l : ℕ) : ℕ :=
  1 <<< (self.params.harmonics - l)

/-- descramble.rs `VoiceDecisions::force_voiced`. -/
def VoiceDecisions.force_voiced (self : VoiceDecisions) (l : ℕ) : VoiceDecisions :=
  { self with voiced := self.voiced ||| self.mask l }

/-- descramble.rs `VoiceDecisions::unvoiced_count`: L minus the number of set
bits of the harmonic bitmap. -/
def VoiceDecisions.unvoiced_count (self : VoiceDecisions) : ℕ :=
  self.params.harmonics - ((Nat.bits self.voiced).count true)

/-- descramble.rs `VoiceDecisions::is_voiced`: harmonics above L are reported
unvoiced, others are looked up in the bitmap. -/
def VoiceDecisions.is_voiced (self : VoiceDecisions) (l : ℕ) : Bool :=
  if self.params.harmonics < l then false
  else decide (self.voiced &&& self.mask l ≠ 0)

/-- descramble.rs `VoiceDecisions::default`: all harmonics unvoiced under the
cold-start parameters. -/
noncomputable def VoiceDecisions.defaults : VoiceDecisions :=
  VoiceDecisions.new 0 BaseParams.defaults

/-- descramble.rs `descramble`, drawing the allocation widths from the
modelled table (see `QuantizedAmplitudes.new` for the `none` cases). -/
def descramble (chunks : Chunks) (params : BaseParams)
    (allocBits : List ℕ) (maxBits : ℕ) :
    Option (List ℕ × VoiceDecisions × ℕ) :=
  let parts := ScanSep.new chunks params
  match QuantizedAmplitudes.new (scanBits chunks parts.scanned params)
      allocBits maxBits params with
  | none => none
  | some amps =>
    some (amps, VoiceDecisions.new parts.voiced params, gain_idx chunks parts.idx_part)

/-- enhance.rs `EnhanceErrors`; the f32 error-rate arithmetic is linear, so it
is embedded exactly over ℚ. -/
structure EnhanceErrors where
  total : ℕ
  rate : ℚ
  golay_init : ℕ
  hamming_init : ℕ

/-- enhance.rs `EnhanceErrors::new`: ϵ_T is the sum of the seven counts and
ϵ_R = 0.95·ϵ_R⁻ + 0.000365·ϵ_T (Eq 96). -/
def EnhanceErrors.new (errors : ErrorCounts) (prev_rate : ℚ) : EnhanceErrors :=
  let total := (List.ofFn errors).sum
  { total := total
    rate := 0.95 * prev_rate + 0.000365 * (total : ℚ)
    golay_init := errors 0
    hamming_init := errors 4 }

/-- enhance.rs `should_repeat` (Eqs 97 and 98). -/
def should_repeat (errors : EnhanceErrors) : Bool :=
  2 ≤ errors.golay_init && 10 + 40 * errors.rate ≤ (errors.total : ℚ)

/-- enhance.rs `should_mute`. -/
def should_mute (errors : EnhanceErrors) : Bool :=
  (0.0875 : ℚ) < errors.rate

/-- enhance.rs `amp_thresh` (Eq 115). -/
def amp_thresh (errors : EnhanceErrors) (prev : ℝ) : ℝ :=
  if errors.rate ≤ 0.005 ∧ errors.total ≤ 6 then 20480
  else 6000 - 300 * (errors.total : ℝ) + prev

/-- window.rs `WINDOW_SYNTHESIS`: the 211-entry synthesis window table, whose
decimal literals are exact in ℚ. -/
def WINDOW_SYNTHESIS : List ℚ :=
  [ 0, 0.02, 0.04, 0.06, 0.08, 0.10, 0.12, 0.14, 0.16, 0.18,
    0.20, 0.22, 0.24, 0.26, 0.28, 0.30, 0.32, 0.34, 0.36, 0.38,
    0.40, 0.42, 0.44, 0.46, 0.48, 0.50, 0.52, 0.54, 0.56, 0.58,
    0.60, 0.62, 0.64, 0.66, 0.68, 0.70, 0.72, 0.74, 0.76, 0.78,
    0.80, 0.82, 0.84, 0.86, 0.88, 0.90, 0.92, 0.94, 0.96, 0.98,
    1, 1, 1, 1, 1, 1, 1, 1, 1, 1,
    1, 1, 1, 1, 1, 1, 1, 1, 1, 1,
    1, 1, 1, 1, 1, 1, 1, 1, 1, 1,
    1, 1, 1, 1, 1, 1, 1, 1, 1, 1,
    1, 1, 1, 1, 1, 1, 1, 1, 1, 1,
    1, 1, 1, 1, 1, 1, 1, 1, 1, 1,
    1, 1, 1, 1, 1, 1, 1, 1, 1, 1,
    1, 1, 1, 1, 1, 1, 1, 1, 1, 1,
    1, 1, 1, 1, 1, 1, 1, 1, 1, 1,
    1, 1, 1, 1, 1, 1, 1, 1, 1, 1,
    1, 1, 1, 1, 1, 1, 1, 1, 1, 1,
    1, 0.98, 0.96, 0.94, 0.92, 0.90, 0.88, 0.86, 0.84, 0.82,
    0.80, 0.78, 0.76, 0.74, 0.72, 0.70, 0.68, 0.66, 0.64, 0.62,
    0.60, 0.58, 0.56, 0.54, 0.52, 0.50, 0.48, 0.46, 0.44, 0.42,
    0.40, 0.38, 0.36, 0.34, 0.32, 0.30, 0.28, 0.26, 0.24, 0.22,
    0.20, 0.18, 0.16, 0.14, 0.12, 0.10, 0.08, 0.06, 0.04, 0.02,
    0 ]

/-- window.rs `Window::get` for `synthesis_full()`: the window is indexed at
n + 105 and reads 0 outside the table (a negative index wraps to a huge
`usize` in the source, so `coefs.get` likewise yields `None`). -/
def Window.get (n : ℤ) : ℚ :=
  if 0 ≤ n + 105 ∧ n + 105 < 211 then WINDOW_SYNTHESIS.getD (n + 105).toNat 0 else 0

/-- The denominator of the weighted-overlap-add combiner in unvoiced.rs
`Unvoiced::get`: w_s(n)² + w_s(n−160)². -/
def wolaDenom (n : ℤ) : ℚ :=
  Window.get n ^ 2 + Window.get (n - 160) ^ 2

noncomputable section

/-- spectral.rs `Spectrals::get`: index 0 reads 1 (Eq 78), an index above the
length saturates at the last element (Eq 79, `last().unwrap()`, hence `none`
on an empty vector), otherwise the stored amplitude. -/
def Spectrals.get (s : List ℝ) (l : ℕ) : Option ℝ :=
  if l = 0 then some 1
  else if s.length < l then s.getLast?
  else s[l - 1]?

/-- The bracketed prediction term of spectral.rs `Spectrals::new` for harmonic
l: (1−δ)·log₂(M̃⁻_k) + δ·log₂(M̃⁻_(k+1)) with k = ⌊(L⁻/L)·l⌋ and δ its
fractional part. -/
def Spectrals.term (prevS : List ℝ) (scale : ℝ) (l : ℕ) : Option ℝ := do
  let k : ℕ := ⌊scale * (l : ℝ)⌋₊
  let dec : ℝ := scale * (l : ℝ) - (k : ℝ)
  let a ← Spectrals.get prevS k
  let b ← Spectrals.get prevS (k + 1)
  pure ((1 - dec) * Real.logb 2 a + dec * Real.logb 2 b)

/-- spectral.rs `Spectrals::new`: predict the spectral amplitudes from the DCT
coefficients Tₗ and the previous frame's amplitudes (Eqs 74-77). -/
def Spectrals.new (coefs : ℕ → ℝ) (params : BaseParams)
    (prevS : List ℝ) (prevHarmonics : ℕ) : Option (List ℝ) := do
  let scale : ℝ := (prevHarmonics : ℝ) / (params.harmonics : ℝ)
  let pred : ℝ := min (max (0.03 * (params.harmonics : ℝ) - 0.05) 0.4) 0.7
  let terms ← (List.range params.harmonics).mapM fun i => Spectrals.term prevS scale (i + 1)
  let sum := terms.sum / (params.harmonics : ℝ)
  (List.range params.harmonics).mapM fun i => do
    let t ← Spectrals.term prevS scale (i + 1)
    pure ((2 : ℝ) ^ (coefs (i + 1) + pred * (t - sum)))

/-- spectral.rs `Spectrals::default`: 56 amplitudes of 1. -/
def Spectrals.defaults : List ℝ := List.replicate MAX_HARMONICS 1

/-- enhance.rs `FrameEnergy`. -/
structure FrameEnergy where
  energy : ℝ
  scaled : ℝ
  tracking : ℝ

/-- enhance.rs `FrameEnergy::new` (Eqs 105, 106, 111). -/
def FrameEnergy.new (spectrals : List ℝ) (prev : FrameEnergy) (params : BaseParams) :
    FrameEnergy :=
  let energy := (spectrals.map fun m => m ^ 2).sum
  let scaled := (spectrals.enum.map fun q =>
    q.2 ^ 2 * Real.cos (params.fundamental * ((q.1 + 1 : ℕ) : ℝ))).sum
  { energy := energy
    scaled := scaled
    tracking := max (0.95 * prev.tracking + 0.05 * energy) 10000 }

/-- enhance.rs `FrameEnergy::default`. -/
def FrameEnergy.defaults : FrameEnergy :=
  { energy := 0, scaled := 0, tracking := 75000 }

/-- enhance.rs `EnhancedSpectrals::get`: stored amplitude, 0 out of bounds. -/
def EnhancedSpectrals.get (e : List ℝ) (l : ℕ) : ℝ :=
  e.getD (l - 1) 0

/-- The per-harmonic weighting pass of enhance.rs `EnhancedSpectrals::new`
(Eqs 107-108), before the energy rescale. -/
def EnhancedSpectrals.weighted (spectrals : List ℝ) (fen : FrameEnergy)
    (params : BaseParams) : List ℝ :=
  let energy_sqr := fen.energy ^ 2
  let scaled_sqr := fen.scaled ^ 2
  let denom := params.fundamental * fen.energy * (energy_sqr - scaled_sqr)
  spectrals.enum.map fun q =>
    let l : ℕ := q.1 + 1
    let m := q.2
    if 8 * l ≤ params.harmonics then m
    else
      let weight := Real.sqrt m * (0.96 * Real.pi *
        (energy_sqr + scaled_sqr - 2 * fen.energy * fen.scaled *
          Real.cos (params.fundamental * (l : ℝ))) / denom) ^ (0.25 : ℝ)
      m * min (max weight 0.5) 1.2

/-- enhance.rs `EnhancedSpectrals::new` (Eqs 107-110): the weighting pass
followed by the energy-preserving rescale. -/
def EnhancedSpectrals.new (spectrals : List ℝ) (fen : FrameEnergy)
    (params : BaseParams) : List ℝ :=
  let enhanced := EnhancedSpectrals.weighted spectrals fen params
  let scale := Real.sqrt (fen.energy / (enhanced.map fun m => m ^ 2).sum)
  enhanced.map fun m => m * scale

/-- The largest finite f32, the source's `std::f32::MAX` used as the
force-voiced threshold when errors are low. -/
def f32Max : ℝ := 340282346638528859811704183484516925440

/-- enhance.rs `smooth` (Eqs 112-116): adaptive smoothing returns the rescaled
amplitudes and the possibly force-voiced decisions. -/
def smooth (enhanced : List ℝ) (voiced : VoiceDecisions) (errors : EnhanceErrors)
    (fen : FrameEnergy) (ampThresh : ℝ) : List ℝ × VoiceDecisions :=
  let thresh : ℝ :=
    if errors.rate ≤ 0.005 ∧ errors.total ≤ 4 then f32Max
    else if errors.rate ≤ 0.0125 ∧ errors.hamming_init = 0 then
      45.255 * fen.tracking ^ (0.375 : ℝ) / Real.exp (277.26 * (errors.rate : ℝ))
    else 1.414 * fen.tracking ^ (0.375 : ℝ)
  let voiced' := enhanced.enum.foldl
    (fun vd q => if thresh < q.2 then vd.force_voiced (q.1 + 1) else vd) voiced
  let amp := enhanced.sum
  let scale := min (ampThresh / amp) 1
  (enhanced.map fun m => m * scale, voiced')

/-- coefs.rs `AMPS_USED`: row L−9 gives J₁−1, …, J₆−1. -/
def AMPS_USED : List (List ℕ) :=
  [ [0, 0, 0, 1, 1, 1], [0, 0, 1, 1, 1, 1], [0, 1, 1, 1, 1, 1], [1, 1, 1, 1, 1, 1]
  , [1, 1, 1, 1, 1, 2], [1, 1, 1, 1, 2, 2], [1, 1, 1, 2, 2, 2], [1, 1, 2, 2, 2, 2]
  , [1, 2, 2, 2, 2, 2], [2, 2, 2, 2, 2, 2], [2, 2, 2, 2, 2, 3], [2, 2, 2, 2, 3, 3]
  , [2, 2, 2, 3, 3, 3], [2, 2, 3, 3, 3, 3], [2, 3, 3, 3, 3, 3], [3, 3, 3, 3, 3, 3]
  , [3, 3, 3, 3, 3, 4], [3, 3, 3, 3, 4, 4], [3, 3, 3, 4, 4, 4], [3, 3, 4, 4, 4, 4]
  , [3, 4, 4, 4, 4, 4], [4, 4, 4, 4, 4, 4], [4, 4, 4, 4, 4, 5], [4, 4, 4, 4, 5, 5]
  , [4, 4, 4, 5, 5, 5], [4, 4, 5, 5, 5, 5], [4, 5, 5, 5, 5, 5], [5, 5, 5, 5, 5, 5]
  , [5, 5, 5, 5, 5, 6], [5, 5, 5, 5, 6, 6], [5, 5, 5, 6, 6, 6], [5, 5, 6, 6, 6, 6]
  , [5, 6, 6, 6, 6, 6], [6, 6, 6, 6, 6, 6], [6, 6, 6, 6, 6, 7], [6, 6, 6, 6, 7, 7]
  , [6, 6, 6, 7, 7, 7], [6, 6, 7, 7, 7, 7], [6, 7, 7, 7, 7, 7], [7, 7, 7, 7, 7, 7]
  , [7, 7, 7, 7, 7, 8], [7, 7, 7, 7, 8, 8], [7, 7, 7, 8, 8, 8], [7, 7, 8, 8, 8, 8]
  , [7, 8, 8, 8, 8, 8], [8, 8, 8, 8, 8, 8], [8, 8, 8, 8, 8, 9], [8, 8, 8, 8, 9, 9] ]

/-- coefs.rs `DCT_STEP_SIZE`. -/
def DCT_STEP_SIZE : List ℝ :=
  [1.2, 0.85, 0.65, 0.40, 0.28, 0.15, 0.08, 0.04, 0.02, 0.01]

/-- coefs.rs `DCT_STD_DEV`. -/
def DCT_STD_DEV : List ℝ :=
  [0.307, 0.241, 0.207, 0.190, 0.179, 0.173, 0.165, 0.170, 0.170]

/-- coefs.rs `CoefBlock::new`: block i's coefficients Cᵢ,₁..Cᵢ,Jᵢ — the i-th
gain followed by the dequantized amplitudes (Eq for Cᵢ,k with the step-size
and standard-deviation tables). Table and slice indexing is embedded with
`getD`; every call from the frame driver stays within bounds. -/
def CoefBlock.new (block cur : ℕ) (gains : ℕ → ℝ) (amps : List ℕ)
    (alloc : List ℕ) (params : BaseParams) : List ℝ :=
  let blocks := AMPS_USED.getD (params.harmonics - 9) []
  let count := blocks.getD (block - 1) 0
  gains block :: ((List.range count).map fun k =>
    let m := cur + k
    let bits := alloc.getD (m - 3) 0
    if bits = 0 then 0
    else DCT_STEP_SIZE.getD (bits - 1) 0 * DCT_STD_DEV.getD k 0 *
      ((amps.getD (m - 3) 0 : ℝ) - (2 : ℝ) ^ (bits - 1) + 0.5))

/-- coefs.rs `CoefBlock::idct`: cᵢ,ⱼ = Cᵢ,₁ + 2·Σ_(k=2..Jᵢ) Cᵢ,k·cos(π(k−1)(j−0.5)/Jᵢ). -/
def CoefBlock.idct (c : List ℝ) (j : ℕ) : ℝ :=
  c.getD 0 0 + 2 * ((List.range (c.length - 1)).map fun k0 =>
    c.getD (k0 + 1) 0 *
      Real.cos (Real.pi * ((k0 + 1 : ℕ) : ℝ) * ((j : ℝ) - 0.5) / (c.length : ℝ))).sum

/-- coefs.rs `Coefficients::new`: concatenate the six inverse-DCT blocks,
threading the starting amplitude index (b₈ first). -/
def Coefficients.new (gains : ℕ → ℝ) (amps : List ℕ) (alloc : List ℕ)
    (params : BaseParams) : List ℝ :=
  (([1, 2, 3, 4, 5, 6] : List ℕ).foldl
    (fun st block =>
      let b := CoefBlock.new block st.2 gains amps alloc params
      (st.1 ++ (List.range b.length).map fun j => CoefBlock.idct b (j + 1),
        st.2 + (b.length - 1)))
    (([] : List ℝ), 8)).1

/-- The synthesis window as a real number. -/
def windowR (n : ℤ) : ℝ := (Window.get n : ℝ)

/-- Modelled from the spec: the `UnvoicedDft` construction of the revision
used by decode.rs is not in the source tree; per §4.8 each unvoiced
harmonic's band [aₗ, bₗ) is filled with injected Gaussian draws scaled to the
enhanced amplitude by γ_w·M̄ₗ/√P. Only positive-frequency bins 0 ≤ m < 128
are populated.  The band edges follow unvoiced.rs `edges`. -/
def edges (l : ℕ) (params : BaseParams) : ℤ × ℤ :=
  (⌈256 / (2 * Real.pi) * ((l : ℝ) - 0.5) * params.fundamental⌉,
   ⌈256 / (2 * Real.pi) * ((l : ℝ) + 0.5) * params.fundamental⌉)

/-- Modelled from the spec: unvoiced DFT bins (§4.8), with `rng` the injected
Gaussian source. -/
def UnvoicedDft.new (params : BaseParams) (voice : VoiceDecisions)
    (enhanced : List ℝ) (rng : ℤ → ℝ × ℝ) : ℤ → ℝ × ℝ := fun m =>
  (Finset.range params.harmonics).sum fun i =>
    let l := i + 1
    if voice.is_voiced l then (0, 0)
    else
      let e := edges l params
      if e.1 ≤ m ∧ m < e.2 ∧ 0 ≤ m ∧ m < 128 then
        let P := ((Finset.Ico e.1 e.2).sum fun n => (rng n).1 ^ 2 + (rng n).2 ^ 2) /
          ((e.2 - e.1 : ℤ) : ℝ)
        let scale := 146.6432708443356 * EnhancedSpectrals.get enhanced l / Real.sqrt P
        (scale * (rng m).1, scale * (rng m).2)
      else (0, 0)

/-- unvoiced.rs `UnvoicedParts::idft` (and spec §4.8): the real half-sum
inverse DFT, zero outside [−128, 127]. -/
def UnvoicedDft.idft (u : ℤ → ℝ × ℝ) (n : ℤ) : ℝ :=
  if n < -128 ∨ 127 < n then 0
  else (2 / 256) * ((Finset.range 128).sum fun m =>
    (u m).1 * Real.cos (2 * Real.pi * (m : ℝ) * (n : ℝ) / 256) -
      (u m).2 * Real.sin (2 * Real.pi * (m : ℝ) * (n : ℝ) / 256))

/-- unvoiced.rs `Unvoiced::get`: the weighted-overlap-add combination of the
previous and current inverse DFTs; the denominator is `wolaDenom`. -/
def Unvoiced.get (cur prev : ℤ → ℝ × ℝ) (n : ℕ) : ℝ :=
  let numer := windowR n * UnvoicedDft.idft prev n +
    windowR ((n : ℤ) - 160) * UnvoicedDft.idft cur ((n : ℤ) - 160)
  numer / (wolaDenom n : ℝ)

/-- voiced.rs `PhaseBase::get`. -/
def PhaseBase.get (base : List ℝ) (l : ℕ) : ℝ := base.getD (l - 1) 0

/-- voiced.rs `PhaseBase::new` (Eq 139): Ψₗ = Ψₗ⁻ + (ω₀⁻+ω₀)·N/2·l for
l = 1..56. -/
def PhaseBase.new (params : BaseParams) (prevFundamental : ℝ) (prevBase : List ℝ) :
    List ℝ :=
  let scale := (prevFundamental + params.fundamental) * (SAMPLES_PER_FRAME : ℝ) / 2
  (List.range MAX_HARMONICS).map fun i =>
    PhaseBase.get prevBase (i + 1) + scale * ((i + 1 : ℕ) : ℝ)

/-- voiced.rs `PhaseBase::default` / `Phase::default`: all zeros. -/
def PhaseBase.defaults : List ℝ := List.replicate MAX_HARMONICS 0

/-- voiced.rs `Phase::new` (Eq 140): copy the base phases and perturb indices
L/4 ≤ i < max(L, L⁻) by the scaled injected uniform draws. -/
def Phase.new (base : List ℝ) (params : BaseParams) (prevHarmonics : ℕ)
    (voice : VoiceDecisions) (rng : ℕ → ℝ) : List ℝ :=
  let start := params.harmonics / 4
  let stop := max params.harmonics prevHarmonics
  let scale := (voice.unvoiced_count : ℝ) / (params.harmonics : ℝ)
  (List.range MAX_HARMONICS).map fun i =>
    if start ≤ i ∧ i < stop then base.getD i 0 + scale * rng i else base.getD i 0

/-- prev.rs `PrevFrame`: the decoder state carried across frames. -/
structure PrevFrame where
  params : BaseParams
  spectrals : List ℝ
  enhanced : List ℝ
  voice : VoiceDecisions
  err_rate : ℚ
  energy : FrameEnergy
  amp_thresh : ℝ
  unvoiced : ℤ → ℝ × ℝ
  phase_base : List ℝ
  phase : List ℝ

/-- prev.rs `PrevFrame::default`: the cold-start state. -/
def PrevFrame.defaults : PrevFrame :=
  { params := BaseParams.defaults
    spectrals := Spectrals.defaults
    enhanced := []
    voice := VoiceDecisions.defaults
    err_rate := 0
    energy := FrameEnergy.defaults
    amp_thresh := 0
    unvoiced := fun _ => (0, 0)
    phase_base := PhaseBase.defaults
    phase := PhaseBase.defaults }

/-- voiced.rs `Voiced::sig_cur` (Eq 132). -/
def Voiced.sig_cur (params : BaseParams) (amps phase : List ℝ) (l : ℕ) (n : ℤ) : ℝ :=
  windowR (n - 160) * EnhancedSpectrals.get amps l *
    Real.cos (params.fundamental * ((n - 160 : ℤ) : ℝ) * (l : ℝ) + phase.getD (l - 1) 0)

/-- voiced.rs `Voiced::sig_prev` (Eq 131). -/
def Voiced.sig_prev (prev : PrevFrame) (l : ℕ) (n : ℤ) : ℝ :=
  windowR n * EnhancedSpectrals.get prev.enhanced l *
    Real.cos (prev.params.fundamental * (n : ℝ) * (l : ℝ) + prev.phase.getD (l - 1) 0)

/-- voiced.rs `Voiced::get_pair` (Eqs 130-133). -/
def Voiced.get_pair (params : BaseParams) (prev : PrevFrame) (phase amps : List ℝ)
    (voice : VoiceDecisions) (l : ℕ) (n : ℤ) : ℝ :=
  match voice.is_voiced l, prev.voice.is_voiced l with
  | false, false => 0
  | false, true => Voiced.sig_prev prev l n
  | true, false => Voiced.sig_cur params amps phase l n
  | true, true => Voiced.sig_prev prev l n + Voiced.sig_cur params amps phase l n

/-- voiced.rs `Voiced::get` (Eq 127): twice the sum over harmonics up to
max(L, L⁻). -/
def Voiced.get (params : BaseParams) (prev : PrevFrame) (phase amps : List ℝ)
    (voice : VoiceDecisions) (n : ℕ) : ℝ :=
  2 * ((List.range (max params.harmonics prev.params.harmonics)).map fun i =>
    Voiced.get_pair params prev phase amps voice (i + 1) (n : ℤ)).sum

/-- decode.rs `ImbeDecoder::silence`: 160 zero samples. -/
def silence_frame : List ℝ :=
  (List.range SAMPLES_PER_FRAME).map fun _ => 0

/-- decode.rs `ImbeDecoder::repeat`: re-synthesize from the previous frame's
parameters (fresh noise, advanced phase) without touching the state. -/
def repeat_frame (rngU : ℤ → ℝ × ℝ) (rngP : ℕ → ℝ) (prev : PrevFrame) : List ℝ :=
  let params := prev.params
  let voice := prev.voice
  let enhanced := prev.enhanced
  let udft := UnvoicedDft.new params voice enhanced rngU
  let vbase := PhaseBase.new params prev.params.fundamental prev.phase_base
  let vphase := Phase.new vbase params prev.params.harmonics voice rngP
  (List.range SAMPLES_PER_FRAME).map fun n =>
    Unvoiced.get udft prev.unvoiced n + Voiced.get params prev vphase enhanced voice n

/-- decode.rs `ImbeDecoder::decode`, as a state transformer producing the
audio buffer and the next state.  `allocsFn` stands for the absent allocs.rs
table (per-L widths and maximum width), `gainsFn` for the absent gain.rs
computation (gain index and amplitudes to the six block gains), and `rngU`,
`rngP` for the injected random sources; `none` embeds a panic. -/
def decode (allocsFn : ℕ → List ℕ × ℕ)
    (gainsFn : ℕ → List ℕ → BaseParams → ℕ → ℝ)
    (rngU : ℤ → ℝ × ℝ) (rngP : ℕ → ℝ)
    (chunks : Chunks) (errorCounts : ErrorCounts) (prev : PrevFrame) :
    Option (List ℝ × PrevFrame) :=
  match Bootstrap.new chunks with
  | Bootstrap.Invalid => some (repeat_frame rngU rngP prev, prev)
  | Bootstrap.Silence => some (silence_frame, prev)
  | Bootstrap.Period p =>
    let errors := EnhanceErrors.new errorCounts prev.err_rate
    if should_repeat errors then some (repeat_frame rngU rngP prev, prev)
    else if should_mute errors then some (silence_frame, prev)
    else
      let params := BaseParams.new p
      let alloc := allocsFn params.harmonics
      match descramble chunks params alloc.1 alloc.2 with
      | none => none
      | some (amps, voice, gainIdx) =>
        let gains := gainsFn gainIdx amps params
        let coefs := Coefficients.new gains amps alloc.1 params
        match Spectrals.new (fun l => coefs.getD (l - 1) 0) params
            prev.spectrals prev.params.harmonics with
        | none => none
        | some spectrals =>
          let energy := FrameEnergy.new spectrals prev.energy params
          let enhanced := EnhancedSpectrals.new spectrals energy params
          let ampThresh := amp_thresh errors prev.amp_thresh
          let sm := smooth enhanced voice errors energy ampThresh
          let udft := UnvoicedDft.new params sm.2 sm.1 rngU
          let vbase := PhaseBase.new params prev.params.fundamental prev.phase_base
          let vphase := Phase.new vbase params prev.params.harmonics sm.2 rngP
          let buf := (List.range SAMPLES_PER_FRAME).map fun n =>
            Unvoiced.get udft prev.unvoiced n +
              Voiced.get params prev vphase sm.1 sm.2 n
          some (buf,
            { params := params
              spectrals := spectrals
              enhanced := sm.1
              voice := sm.2
              err_rate := errors.rate
              energy := energy
              amp_thresh := ampThresh
              unvoiced := udft
              phase_base := vbase
              phase := vphase })

/-- The tail of the normal synthesis path of `decode`, after both fallible
steps (descramble and spectral prediction) have succeeded with voicing
decisions `voice` and spectral amplitudes `sp`; everything from frame energy
onwards is total. -/
def decodeNormal (rngU : ℤ → ℝ × ℝ) (rngP : ℕ → ℝ) (errorCounts : ErrorCounts)
    (prev : PrevFrame) (p : ℕ) (voice : VoiceDecisions) (sp : List ℝ) :
    List ℝ × PrevFrame :=
  let errors := EnhanceErrors.new errorCounts prev.err_rate
  let params := BaseParams.new p
  let energy := FrameEnergy.new sp prev.energy params
  let enhanced := EnhancedSpectrals.new sp energy params
  let ampThresh := amp_thresh errors prev.amp_thresh
  let sm := smooth enhanced voice errors energy ampThresh
  let udft := UnvoicedDft.new params sm.2 sm.1 rngU
  let vbase := PhaseBase.new params prev.params.fundamental prev.phase_base
  let vphase := Phase.new vbase params prev.params.harmonics sm.2 rngP
  ((List.range SAMPLES_PER_FRAME).map fun n =>
      Unvoiced.get udft prev.unvoiced n + Voiced.get params prev vphase sm.1 sm.2 n,
    { params := params
      spectrals := sp
      enhanced := sm.1
      voice := sm.2
      err_rate := errors.rate
      energy := energy
      amp_thresh := ampThresh
      unvoiced := udft
      phase_base := vbase
      phase := vphase })

/-- The previous-frame amplitude read as the specification words it (§4.3):
M̃⁻₀ = 1 and indices above L⁻ saturate at the last harmonic M̃⁻ of the
previous frame. -/
def specRead (prevS : List ℝ) (k : ℕ) : ℝ :=
  if k = 0 then 1
  else if prevS.length < k then prevS.getLastD 1
  else prevS.getD (k - 1) 1

/-- The bracketed interpolation term of the prediction (§4.3):
(1−δ)·log₂(M̃⁻ₖ) + δ·log₂(M̃⁻ₖ₊₁) with k = ⌊s·l⌋ and δ = s·l − k. -/
def specBracket (prevS : List ℝ) (s : ℝ) (l : ℕ) : ℝ :=
  (1 - (s * (l : ℝ) - (⌊s * (l : ℝ)⌋₊ : ℝ))) *
      Real.logb 2 (specRead prevS ⌊s * (l : ℝ)⌋₊)
    + (s * (l : ℝ) - (⌊s * (l : ℝ)⌋₊ : ℝ)) *
      Real.logb 2 (specRead prevS (⌊s * (l : ℝ)⌋₊ + 1))

/-- The spectral-amplitude prediction formula exactly as the specification
states it (§4.3): M̃ₗ = 2^(Tₗ + ρ·[(1−δₗ)·log₂(M̃⁻ₖ) + δₗ·log₂(M̃⁻ₖ₊₁) − μ])
with k = ⌊(L⁻/L)·l⌋, δₗ its fractional part, ρ = clamp(0.03·L − 0.05, 0.4, 0.7)
and μ the average of the bracketed term over l = 1..L. -/
def predictedSpectral (coefs : ℕ → ℝ) (params : BaseParams) (prevS : List ℝ)
    (prevL : ℕ) (l : ℕ) : ℝ :=
  let s : ℝ := (prevL : ℝ) / (params.harmonics : ℝ)
  let rho : ℝ := min (max (0.03 * (params.harmonics : ℝ) - 0.05) 0.4) 0.7
  let mu : ℝ :=
    (1 / (params.harmonics : ℝ)) * ∑ j ∈ Finset.range params.harmonics,
      specBracket prevS s (j + 1)
  (2 : ℝ) ^ (coefs l + rho * (specBracket prevS s l - mu))

/-- Build a `Chunks` value from a list. -/
def mkChunks (l : List ℕ) : Chunks := fun i => l.getD i.val 0

/-- Build an `ErrorCounts` value from a list. -/
def mkErrors (l : List ℕ) : ErrorCounts := fun i => l.getD i.val 0

/-- The error counts of scenario S5 (repeat by FEC). -/
def errS5 : ErrorCounts := mkErrors [2, 0, 0, 0, 10, 0, 0]

/-- A frame whose chunk u₀ has top six bits 54, classifying as silence. -/
def silChunks : Chunks := mkChunks [3456, 0, 0, 0, 0, 0, 0, 0]

/-- One corrected error alongside the silence frame. -/
def silErrors : ErrorCounts := mkErrors [1, 0, 0, 0, 0, 0, 0]

/-- A trivial allocation table stub (no widths). -/
def allocsTriv : ℕ → List ℕ × ℕ := fun _ => ([], 0)

/-- A trivial gain computation stub. -/
def gainsTriv : ℕ → List ℕ → BaseParams → ℕ → ℝ := fun _ _ _ _ => 0

/-- A zero Gaussian source. -/
def rngUZero : ℤ → ℝ × ℝ := fun _ => (0, 0)

/-- A zero uniform source. -/
def rngPZero : ℕ → ℝ := fun _ => 0

/-- A concrete allocation table satisfying the specification's budget: L−1
widths bounded by 10 summing to 73−K. -/
def allocsWitness : ℕ → List ℕ × ℕ := fun L =>
  let n := 73 - min ((L + 2) / 3) 12
  (List.replicate (n / 10) 10 ++ n % 10 :: List.replicate (L - 2 - n / 10) 0, 10)

/-- The L = 16 allocation widths used by the repository's own descramble
test (b₃..b₁₇ have 6,6,6,5,5,6,6,5,4,4,3,3,3,3,2 bits). -/
def tw16 : List ℕ := [6, 6, 6, 5, 5, 6, 6, 5, 4, 4, 3, 3, 3, 3, 2]

/-- The chunks of scenario S1 / the repository's `test_descramble_16`. -/
def chunks16 : Chunks :=
  mkChunks [0b001000010010, 0b110011001100, 0b111000111000, 0b111111111111,
    0b10100110101, 0b00101111010, 0b01110111011, 0b00001000]

/-- Frame parameters with L = 16, K = 6 (the fundamental is irrelevant to the
descrambler). -/
def params16 : BaseParams := { fundamental := 0, harmonics := 16, bands := 6 }

/-- A previous phase base Ψₗ = l, as in the repository's `test_phase_base`. -/
def phaseLin : List ℝ := (List.range MAX_HARMONICS).map fun i => ((i + 1 : ℕ) : ℝ)

/-- Parameters carrying the `test_phase_base` fundamental 0.17575344. -/
def phaseParams : BaseParams := { fundamental := 0.17575344, harmonics := 16, bands := 6 }

/-- The previous fundamental 0.0937765407 of `test_phase_base` (the cold-start
0.02985·π). -/
def phasePrevFund : ℝ := 0.0937765407

end


lemma pi_div_fundamental (period : ℕ) :
    Real.pi / (4 * Real.pi / ((period : ℝ) + 39.5)) = ((period : ℝ) + 39.5) / 4 := by
  have hp : (0 : ℝ) < (period : ℝ) + 39.5 := by positivity
  have hpi := Real.pi_ne_zero
  field_simp
  ring

lemma inner_floor_eq (period : ℕ) :
    ⌊((period : ℝ) + 39.5) / 4 + 0.25⌋₊ = (2 * period + 81) / 8 := by
  have : ((period : ℝ) + 39.5) / 4 + 0.25 = ((2 * period + 81 : ℕ) : ℝ) / ((8 : ℕ) : ℝ) := by
    push_cast
    ring
  rw [this, Nat.floor_div_nat, Nat.floor_natCast]

lemma harmonics_eq (period : ℕ) :
    (BaseParams.new period).harmonics = harmonicsNat period := by
  unfold BaseParams.new harmonicsNat
  simp only
  rw [pi_div_fundamental, inner_floor_eq]
  have h : (0.9254 : ℝ) * (((2 * period + 81) / 8 : ℕ) : ℝ)
      = ((9254 * ((2 * period + 81) / 8) : ℕ) : ℝ) / ((10000 : ℕ) : ℝ) := by
    push_cast
    ring
  rw [h, Nat.floor_div_nat, Nat.floor_natCast]

lemma bands_def (period : ℕ) :
    (BaseParams.new period).bands = min (((BaseParams.new period).harmonics + 2) / 3) 12 :=
  rfl

lemma bands_eq (period : ℕ) :
    (BaseParams.new period).bands = min ((harmonicsNat period + 2) / 3) 12 := by
  rw [bands_def, harmonics_eq]

lemma chunkBits_length (c r : ℕ) : (chunkBits c r).length = r := by
  simp [chunkBits]

/-- The scan always carries exactly 73 − K bits. -/
lemma scanBits_length (chunks : Chunks) (sep : ℕ) (params : BaseParams)
    (hK : params.bands ≤ 12) :
    (scanBits chunks sep params).length = 73 - params.bands := by
  simp [scanBits, scanChunks, chunkBits_length]
  omega

lemma drawLevel_countP (idx : ℕ) (pairs : List (ℕ × ℕ)) :
    pairs.countP (fun q => decide (idx < q.1)) = levelDraws (pairs.map Prod.fst) idx := by
  simp only [levelDraws, List.countP_map]
  rfl

lemma drawLevel_spec (idx : ℕ) :
    ∀ (pairs : List (ℕ × ℕ)) (stream : List ℕ),
      levelDraws (pairs.map Prod.fst) idx ≤ stream.length →
      ∃ pairs', drawLevel idx pairs stream
          = some (pairs', stream.drop (levelDraws (pairs.map Prod.fst) idx))
        ∧ pairs'.map Prod.fst = pairs.map Prod.fst := by
  intro pairs
  induction pairs with
  | nil => intro stream _; exact ⟨[], rfl, rfl⟩
  | cons q rest ih =>
    obtain ⟨w, a⟩ := q
    intro stream hle
    by_cases hw : w ≤ idx
    · have hcnt : levelDraws ((w, a) :: rest |>.map Prod.fst) idx
          = levelDraws (rest.map Prod.fst) idx := by
        simp [levelDraws, List.countP_cons, Nat.not_lt.mpr hw]
      rw [hcnt] at hle ⊢
      obtain ⟨pairs', h1, h2⟩ := ih stream hle
      refine ⟨(w, a) :: pairs', ?_, by simpa using h2⟩
      simp [drawLevel, hw, h1]
    · have hcnt : levelDraws ((w, a) :: rest |>.map Prod.fst) idx
          = levelDraws (rest.map Prod.fst) idx + 1 := by
        simp [levelDraws, List.countP_cons, Nat.lt_of_not_le hw]
      rw [hcnt] at hle ⊢
      match stream with
      | [] => simp at hle
      | b :: s =>
        have hle' : levelDraws (rest.map Prod.fst) idx ≤ s.length := by
          simpa using hle
        obtain ⟨pairs', h1, h2⟩ := ih s hle'
        refine ⟨(w, a <<< 1 ||| b) :: pairs', ?_, by simpa using h2⟩
        simp [drawLevel, hw, h1, List.drop_succ_cons]

lemma drawLevels_spec :
    ∀ (idxs : List ℕ) (pairs : List (ℕ × ℕ)) (stream : List ℕ),
      (idxs.map (levelDraws (pairs.map Prod.fst))).sum ≤ stream.length →
      ∃ pairs', drawLevels idxs pairs stream
          = some (pairs', stream.drop ((idxs.map (levelDraws (pairs.map Prod.fst))).sum))
        ∧ pairs'.map Prod.fst = pairs.map Prod.fst := by
  intro idxs
  induction idxs with
  | nil => intro pairs stream _; exact ⟨pairs, rfl, rfl⟩
  | cons idx idxs ih =>
    intro pairs stream hle
    have h1le : levelDraws (pairs.map Prod.fst) idx ≤ stream.length := by
      simp only [List.map_cons, List.sum_cons] at hle; omega
    obtain ⟨pairs₁, hd1, hfst1⟩ := drawLevel_spec idx pairs stream h1le
    have hrest : (idxs.map (levelDraws (pairs₁.map Prod.fst))).sum
        = (idxs.map (levelDraws (pairs.map Prod.fst))).sum := by rw [hfst1]
    have h2le : (idxs.map (levelDraws (pairs₁.map Prod.fst))).sum
        ≤ (stream.drop (levelDraws (pairs.map Prod.fst) idx)).length := by
      rw [hrest, List.length_drop]
      simp only [List.map_cons, List.sum_cons] at hle
      omega
    obtain ⟨pairs₂, hd2, hfst2⟩ := ih pairs₁ _ h2le
    refine ⟨pairs₂, ?_, by rw [hfst2, hfst1]⟩
    simp only [drawLevels, hd1, hd2, List.map_cons, List.sum_cons]
    rw [hrest, List.drop_drop]

lemma sum_map_range {M : Type} [AddCommMonoid M] (f : ℕ → M) (n : ℕ) :
    ((List.range n).map f).sum = ∑ i ∈ Finset.range n, f i := by
  induction n with
  | zero => simp
  | succ n ih => rw [List.range_succ, Finset.sum_range_succ]; simp [ih]

lemma sum_indicator_range (w n : ℕ) :
    (∑ idx ∈ Finset.range n, if idx < w then 1 else 0) = min w n := by
  induction n with
  | zero => simp
  | succ n ih =>
    rw [Finset.sum_range_succ, ih]
    rcases Nat.lt_or_ge n w with h | h
    · rw [if_pos h]; omega
    · rw [if_neg (Nat.not_lt.mpr h)]; omega

/-- Total number of draws over all bit levels: each width `w ≤ mx` is drawn
exactly `w` times. -/
lemma total_draws (ws : List ℕ) (mx : ℕ) (hmax : ∀ w ∈ ws, w ≤ mx) :
    (((List.range mx).reverse).map (levelDraws ws)).sum = ws.sum := by
  rw [List.map_reverse, List.sum_reverse, sum_map_range]
  induction ws with
  | nil => simp [levelDraws]
  | cons w ws ih =>
    have hw : w ≤ mx := hmax w (by simp)
    have hws : ∀ v ∈ ws, v ≤ mx := fun v hv => hmax v (by simp [hv])
    have hsplit : ∀ idx, levelDraws (w :: ws) idx
        = (if idx < w then 1 else 0) + levelDraws ws idx := by
      intro idx
      by_cases h : idx < w
      · simp [levelDraws, List.countP_cons, h, Nat.add_comm]
      · simp [levelDraws, List.countP_cons, h]
    calc (∑ idx ∈ Finset.range mx, levelDraws (w :: ws) idx)
        = (∑ idx ∈ Finset.range mx, ((if idx < w then 1 else 0) + levelDraws ws idx)) := by
          exact Finset.sum_congr rfl fun idx _ => hsplit idx
      _ = (∑ idx ∈ Finset.range mx, if idx < w then 1 else 0)
            + ∑ idx ∈ Finset.range mx, levelDraws ws idx := Finset.sum_add_distrib
      _ = w + ws.sum := by rw [sum_indicator_range, ih hws, Nat.min_eq_left hw]
      _ = (w :: ws).sum := by simp

/-- Exact consumption: whenever the allocation widths cover L−1 amplitudes,
are bounded by the level count, and sum to the scan length, amplitude
reconstruction succeeds and leaves the scan empty. -/
lemma quantAmps_some (scan allocBits : List ℕ) (mx : ℕ) (p : BaseParams)
    (hlen : allocBits.length = p.harmonics - 1)
    (hsum : allocBits.sum = scan.length)
    (hmax : ∀ w ∈ allocBits, w ≤ mx) :
    ∃ amps, QuantizedAmplitudes.new scan allocBits mx p = some amps
      ∧ amps.length = p.harmonics - 1 := by
  have htake : allocBits.take (p.harmonics - 1) = allocBits := by
    rw [← hlen]; simp
  have hfst : ((allocBits.take (p.harmonics - 1)).map (fun w => (w, 0))).map Prod.fst
      = allocBits := by
    rw [htake, List.map_map]
    simp [Function.comp_def]
  have htotal : (((List.range mx).reverse).map
      (levelDraws (((allocBits.take (p.harmonics - 1)).map (fun w => (w, 0))).map Prod.fst))).sum
      = scan.length := by
    rw [hfst, total_draws allocBits mx hmax, hsum]
  obtain ⟨pairs', hdraw, hfst'⟩ := drawLevels_spec ((List.range mx).reverse)
    ((allocBits.take (p.harmonics - 1)).map (fun w => (w, 0))) scan (le_of_eq htotal)
  refine ⟨pairs'.map Prod.snd, ?_, ?_⟩
  · unfold QuantizedAmplitudes.new
    rw [if_neg (by omega)]
    simp only [hdraw, htotal, List.drop_length]
    simp
  · have : (pairs'.map Prod.fst).length = allocBits.length := by rw [hfst', hfst]
    simpa [hlen] using this

lemma or_low (a c : ℕ) (hc : c < 8) : (a <<< 3) ||| c = 8 * a + c := by
  have h8 : 8 * a + c = 2 ^ 3 * a + c := by norm_num
  apply Nat.eq_of_testBit_eq
  intro i
  rw [Nat.testBit_or, Nat.testBit_shiftLeft, h8,
    Nat.testBit_mul_pow_two_add a (show c < 2 ^ 3 by omega) i]
  rcases Nat.lt_or_ge i 3 with h | h
  · simp [Nat.not_le_of_lt h, h]
  · have hc' : c.testBit i = false := by
      apply Nat.testBit_eq_false_of_lt
      calc c < 8 := hc
        _ = 2 ^ 3 := by norm_num
        _ ≤ 2 ^ i := Nat.pow_le_pow_right (by norm_num) h
    simp [h, Nat.not_lt_of_le h, hc']

lemma genAux_acc (v : ℕ) :
    ∀ (is : List ℕ) (acc : ℕ),
      genAux v is acc = acc * 8 ^ is.length + genAux v is 0
        ∧ genAux v is 0 < 8 ^ is.length := by
  intro is
  induction is with
  | nil => intro acc; simp [genAux]
  | cons i rest ih =>
    intro acc
    set c : ℕ := if (v >>> i) &&& 1 = 1 then 7 else 0 with hc
    have hclt : c < 8 := by rw [hc]; split <;> omega
    have hstep : ∀ b : ℕ, genAux v (i :: rest) b = genAux v rest (8 * b + c) := by
      intro b
      show genAux v rest ((b <<< 3) ||| c) = genAux v rest (8 * b + c)
      rw [or_low b c hclt]
    have hzero : (8 : ℕ) * 0 + c = c := by omega
    obtain ⟨hv, hlt⟩ := ih (8 * acc + c)
    obtain ⟨hv0, _⟩ := ih c
    constructor
    · rw [hstep acc, hstep 0, hzero, hv, hv0]
      simp only [List.length_cons, pow_succ]
      ring
    · rw [hstep 0, hzero, hv0]
      have hpow : (0 : ℕ) < 8 ^ rest.length := pow_pos (by norm_num) _
      have h1 : c * 8 ^ rest.length + genAux v rest 0 < (c + 1) * 8 ^ rest.length := by
        have := (ih 0).2
        nlinarith
      calc c * 8 ^ rest.length + genAux v rest 0 < (c + 1) * 8 ^ rest.length := h1
        _ ≤ 8 * 8 ^ rest.length := Nat.mul_le_mul_right _ (by omega)
        _ = 8 ^ (i :: rest).length := by simp [pow_succ, Nat.mul_comm]

lemma shiftRight_and_one (v i : ℕ) : ((v >>> i) &&& 1 = 1) ↔ v.testBit i = true := by
  rw [Nat.and_one_is_mod, Nat.testBit_to_div_mod, Nat.shiftRight_eq_div_pow]
  simp

/-- Bit t of the widened band bitmap is band bit t/3, as long as t < 3K. -/
lemma genAux_testBit (v : ℕ) :
    ∀ (K t : ℕ),
      (genAux v ((List.range K).reverse) 0).testBit t
        = (decide (t < 3 * K) && v.testBit (t / 3)) := by
  intro K
  induction K with
  | zero => intro t; simp [genAux]
  | succ K ih =>
    intro t
    have hrange : (List.range (K + 1)).reverse = K :: (List.range K).reverse := by
      rw [List.range_succ, List.reverse_append]
      simp
    rw [hrange]
    set c : ℕ := if (v >>> K) &&& 1 = 1 then 7 else 0 with hcdef
    have hclt : c < 8 := by rw [hcdef]; split <;> omega
    have hcbit : ∀ r, r < 3 → c.testBit r = v.testBit K := by
      intro r hr
      rw [hcdef]
      by_cases hvb : (v >>> K) &&& 1 = 1
      · rw [if_pos hvb, (shiftRight_and_one v K).mp hvb]
        interval_cases r <;> decide
      · have hf : v.testBit K = false := by
          rcases Bool.eq_false_or_eq_true (v.testBit K) with hb | hb
          · exact absurd ((shiftRight_and_one v K).mpr hb) hvb
          · exact hb
        rw [if_neg hvb, hf]
        simp
    have hstep : genAux v (K :: (List.range K).reverse) 0
        = genAux v ((List.range K).reverse) c := by
      show genAux v ((List.range K).reverse) ((0 <<< 3) ||| c) = _
      rw [or_low 0 c hclt]
      norm_num
    obtain ⟨hval, hlow⟩ := genAux_acc v ((List.range K).reverse) c
    have hlen : ((List.range K).reverse).length = K := by simp
    have h8 : (8 : ℕ) ^ K = 2 ^ (3 * K) := by
      rw [show (8 : ℕ) = 2 ^ 3 by norm_num, ← pow_mul]
    have hlow' : genAux v ((List.range K).reverse) 0 < 2 ^ (3 * K) := by
      have h := (genAux_acc v ((List.range K).reverse) 0).2
      rwa [hlen, h8] at h
    rw [hstep, hval, hlen, h8, Nat.mul_comm c,
      Nat.testBit_mul_pow_two_add c hlow' t]
    rcases Nat.lt_or_ge t (3 * K) with h | h
    · rw [if_pos h, ih t, decide_eq_true h, decide_eq_true (show t < 3 * (K + 1) by omega)]
    · rw [if_neg (Nat.not_lt_of_le h)]
      rcases Nat.lt_or_ge t (3 * (K + 1)) with h2 | h2
      · have hdiv : t / 3 = K := by omega
        rw [hcbit (t - 3 * K) (by omega), hdiv, decide_eq_true h2]
        simp
      · have hcb : c.testBit (t - 3 * K) = false := by
          apply Nat.testBit_eq_false_of_lt
          calc c < 8 := hclt
            _ = 2 ^ 3 := by norm_num
            _ ≤ 2 ^ (t - 3 * K) := Nat.pow_le_pow_right (by norm_num) (by omega)
        rw [hcb, decide_eq_false (Nat.not_lt_of_le h2)]
        simp

/-- The mask test in `is_voiced` is a `testBit`. -/
lemma and_mask_ne_zero (w t : ℕ) : (w &&& 1 <<< t ≠ 0) ↔ w.testBit t = true := by
  rw [Nat.shiftLeft_eq, one_mul, Nat.and_two_pow]
  have h2 : (2 : ℕ) ^ t ≠ 0 := (Nat.two_pow_pos t).ne'
  rcases Bool.eq_false_or_eq_true (w.testBit t) with hb | hb <;> simp [hb, h2]

/-- Harmonic-to-band correspondence of descramble.rs `gen_harmonics_bitmap`
plus `is_voiced`, valid whenever K = ⌈L/3⌉ (no band clipping): harmonic l,
1 ≤ l ≤ L, is voiced exactly when band bit K − ⌈l/3⌉ (counting from the LSB,
so band 1 is the MSB of the K-bit map) is set. -/
lemma is_voiced_new (v : ℕ) (p : BaseParams) (l : ℕ)
    (hb : p.bands = (p.harmonics + 2) / 3) (hl1 : 1 ≤ l) (hl : l ≤ p.harmonics) :
    (VoiceDecisions.new v p).is_voiced l = v.testBit (p.bands - (l + 2) / 3) := by
  obtain ⟨f, L, K⟩ := p
  simp only at hb hl
  have hs : ∃ s, (if L % 3 = 0 then 0 else 3 - L % 3) = s ∧ 3 * K = L + s ∧ s < 3 := by
    by_cases h : L % 3 = 0
    · exact ⟨0, by rw [if_pos h], by omega, by omega⟩
    · exact ⟨3 - L % 3, by rw [if_neg h], by omega, by omega⟩
  obtain ⟨s, hs1, hs2, hs3⟩ := hs
  have hmap : ∀ t, (gen_harmonics_bitmap v ⟨f, L, K⟩).testBit t
      = (genAux v ((List.range K).reverse) 0).testBit (t + s) := by
    intro t
    unfold gen_harmonics_bitmap
    simp only
    by_cases h : L % 3 = 0
    · rw [if_pos h]
      rw [if_pos h] at hs1
      rw [← hs1, Nat.add_zero]
    · rw [if_neg h, Nat.testBit_shiftRight]
      rw [if_neg h] at hs1
      rw [← hs1, Nat.add_comm]
  unfold VoiceDecisions.is_voiced VoiceDecisions.new VoiceDecisions.mask
  simp only
  rw [if_neg (by omega)]
  have hiff : (gen_harmonics_bitmap v ⟨f, L, K⟩ &&& 1 <<< (L - l) ≠ 0)
      ↔ (v.testBit (K - (l + 2) / 3) = true) := by
    rw [and_mask_ne_zero, hmap (L - l), genAux_testBit]
    have hx : L - l + s = 3 * K - l := by omega
    rw [hx, decide_eq_true (show 3 * K - l < 3 * K by omega),
      show (3 * K - l) / 3 = K - (l + 2) / 3 by omega]
    simp
  have hd : decide (gen_harmonics_bitmap v ⟨f, L, K⟩ &&& 1 <<< (L - l) ≠ 0)
      = decide (v.testBit (K - (l + 2) / 3) = true) := decide_eq_decide.mpr hiff
  rw [hd]
  rcases Bool.eq_false_or_eq_true (v.testBit (K - (l + 2) / 3)) with hb | hb <;> simp [hb]

/-- Harmonics above L are always reported unvoiced, whatever the bitmap word
holds (in particular after any number of `force_voiced` updates). -/
lemma is_voiced_above (vd : VoiceDecisions) (l : ℕ) (hl : vd.params.harmonics < l) :
    vd.is_voiced l = false := by
  unfold VoiceDecisions.is_voiced
  rw [if_pos hl]

lemma is_voiced_new_congr (v l : ℕ) (p : BaseParams) (L K : ℕ)
    (h1 : p.harmonics = L) (h2 : p.bands = K) :
    (VoiceDecisions.new v p).is_voiced l
      = (VoiceDecisions.new v ⟨0, L, K⟩).is_voiced l := by
  obtain ⟨f, L', K'⟩ := p
  simp only at h1 h2
  subst h1
  subst h2
  rfl

/-- C3: the decoder computes ϵ_T = Σ ϵᵢ and ϵ_R = 0.95·ϵ_R⁻ + 0.000365·ϵ_T,
repeats exactly when ϵ₀ ≥ 2 and ϵ_T ≥ 10 + 40·ϵ_R, mutes exactly when
ϵ_R > 0.0875, and with prior rate 0 the counts (2,0,0,0,10,0,0) trigger a
repeat. -/
theorem C3_error_characterization (errors : ErrorCounts) (prevRate : ℚ) :
    ((EnhanceErrors.new errors prevRate).total : ℚ) = ∑ i : Fin 7, (errors i : ℚ)
    ∧ (EnhanceErrors.new errors prevRate).rate
        = 0.95 * prevRate + 0.000365 * ∑ i : Fin 7, (errors i : ℚ)
    ∧ (should_repeat (EnhanceErrors.new errors prevRate) = true
        ↔ 2 ≤ errors 0
          ∧ 10 + 40 * (EnhanceErrors.new errors prevRate).rate
              ≤ ((EnhanceErrors.new errors prevRate).total : ℚ))
    ∧ (should_mute (EnhanceErrors.new errors prevRate) = true
        ↔ 0.0875 < (EnhanceErrors.new errors prevRate).rate)
    ∧ should_repeat (EnhanceErrors.new errS5 0) = true := by
  have hsum : ((List.ofFn errors).sum : ℚ) = ∑ i : Fin 7, (errors i : ℚ) := by
    rw [List.sum_ofFn]
    push_cast
    rfl
  refine ⟨?_, ?_, ?_, ?_, ?_⟩
  · simpa [EnhanceErrors.new] using hsum
  · simp only [EnhanceErrors.new]
    rw [hsum]
  · simp [should_repeat, EnhanceErrors.new]
  · simp [should_mute]
  · simp only [should_repeat, EnhanceErrors.new, errS5, mkErrors, List.ofFn_succ]
    norm_num

/-- C4: for every valid quantized period b₀ ∈ [0, 207], ω₀ = 4π/(b₀+39.5)
lies in (0, π), L = ⌊0.9254·⌊π/ω₀+0.25⌋⌋ lies in [9, 56], and
K = min(⌈L/3⌉, 12) lies in [3, 12]. -/
theorem C4_base_params (b0 : ℕ) (hb : b0 ≤ 207) :
    (BaseParams.new b0).fundamental = 4 * Real.pi / ((b0 : ℝ) + 39.5)
    ∧ (BaseParams.new b0).harmonics
        = ⌊(0.9254 : ℝ) * (⌊Real.pi / (BaseParams.new b0).fundamental + 0.25⌋₊ : ℝ)⌋₊
    ∧ (BaseParams.new b0).bands = min (((BaseParams.new b0).harmonics + 2) / 3) 12
    ∧ 9 ≤ (BaseParams.new b0).harmonics ∧ (BaseParams.new b0).harmonics ≤ 56
    ∧ 3 ≤ (BaseParams.new b0).bands ∧ (BaseParams.new b0).bands ≤ 12
    ∧ 0 < (BaseParams.new b0).fundamental
    ∧ (BaseParams.new b0).fundamental < Real.pi := by
  have hrange : ∀ b, b < 208 → 9 ≤ harmonicsNat b ∧ harmonicsNat b ≤ 56 := by decide
  obtain ⟨h9, h56⟩ := hrange b0 (by omega)
  have hh := harmonics_eq b0
  refine ⟨rfl, rfl, bands_def b0, ?_, ?_, ?_, ?_, ?_, ?_⟩
  · omega
  · omega
  · rw [bands_eq]; omega
  · rw [bands_eq]; omega
  · show 0 < 4 * Real.pi / ((b0 : ℝ) + 39.5)
    have h1 : (0 : ℝ) < (b0 : ℝ) + 39.5 := by positivity
    have h2 := Real.pi_pos
    positivity
  · show 4 * Real.pi / ((b0 : ℝ) + 39.5) < Real.pi
    have hd : (0 : ℝ) < (b0 : ℝ) + 39.5 := by positivity
    rw [div_lt_iff₀ hd]
    nlinarith [Real.pi_pos, Nat.cast_nonneg (α := ℝ) b0]

/-- Witness for C4 at b₀ = 0. -/
theorem C4_base_params_witness :
    (0 : ℕ) ≤ 207
    ∧ ((BaseParams.new 0).fundamental = 4 * Real.pi / (((0 : ℕ) : ℝ) + 39.5)
      ∧ (BaseParams.new 0).harmonics
          = ⌊(0.9254 : ℝ) * (⌊Real.pi / (BaseParams.new 0).fundamental + 0.25⌋₊ : ℝ)⌋₊
      ∧ (BaseParams.new 0).bands = min (((BaseParams.new 0).harmonics + 2) / 3) 12
      ∧ 9 ≤ (BaseParams.new 0).harmonics ∧ (BaseParams.new 0).harmonics ≤ 56
      ∧ 3 ≤ (BaseParams.new 0).bands ∧ (BaseParams.new 0).bands ≤ 12
      ∧ 0 < (BaseParams.new 0).fundamental
      ∧ (BaseParams.new 0).fundamental < Real.pi) :=
  ⟨by decide, C4_base_params 0 (by decide)⟩

lemma window_split :
    WINDOW_SYNTHESIS
      = [0, 0.02, 0.04, 0.06, 0.08, 0.10, 0.12, 0.14, 0.16, 0.18, 0.20, 0.22, 0.24, 0.26, 0.28, 0.30, 0.32, 0.34, 0.36, 0.38, 0.40, 0.42, 0.44, 0.46, 0.48, 0.50, 0.52, 0.54, 0.56, 0.58, 0.60, 0.62, 0.64, 0.66, 0.68, 0.70, 0.72, 0.74, 0.76, 0.78, 0.80, 0.82, 0.84, 0.86, 0.88, 0.90, 0.92, 0.94, 0.96, 0.98]
        ++ (List.replicate 111 (1 : ℚ)
        ++ [0.98, 0.96, 0.94, 0.92, 0.90, 0.88, 0.86, 0.84, 0.82, 0.80, 0.78, 0.76, 0.74, 0.72, 0.70, 0.68, 0.66, 0.64, 0.62, 0.60, 0.58, 0.56, 0.54, 0.52, 0.50, 0.48, 0.46, 0.44, 0.42, 0.40, 0.38, 0.36, 0.34, 0.32, 0.30, 0.28, 0.26, 0.24, 0.22, 0.20, 0.18, 0.16, 0.14, 0.12, 0.10, 0.08, 0.06, 0.04, 0.02, 0]) := rfl

lemma window_plateau (i : ℕ) (h1 : 50 ≤ i) (h2 : i ≤ 160) :
    WINDOW_SYNTHESIS.getD i 0 = 1 := by
  rw [window_split, List.getD_append_right _ _ _ _ (by simp; omega),
    List.getD_append _ _ _ _ (by simp; omega),
    List.getD_eq_getElem _ _ (by simp; omega), List.getElem_replicate]

lemma window_get_plateau (n : ℤ) (h1 : -55 ≤ n) (h2 : n ≤ 55) : Window.get n = 1 := by
  unfold Window.get
  rw [if_pos ⟨by omega, by omega⟩]
  exact window_plateau _ (by omega) (by omega)

lemma wolaDenom_pos_left (n : ℤ) (h : 0 < Window.get n) : 0 < wolaDenom n := by
  unfold wolaDenom
  nlinarith [pow_pos h 2, sq_nonneg (Window.get (n - 160))]

lemma wolaDenom_pos_right (n : ℤ) (h : 0 < Window.get (n - 160)) : 0 < wolaDenom n := by
  unfold wolaDenom
  nlinarith [pow_pos h 2, sq_nonneg (Window.get n)]

lemma window_ramp_pos (n : ℕ) (h1 : 56 ≤ n) (h2 : n ≤ 104) :
    0 < Window.get ((n : ℤ) - 160) := by
  interval_cases n <;>
    norm_num [show Window.get (-104 : ℤ) = 0.02 from rfl,
      show Window.get (-103 : ℤ) = 0.04 from rfl,
      show Window.get (-102 : ℤ) = 0.06 from rfl,
      show Window.get (-101 : ℤ) = 0.08 from rfl,
      show Window.get (-100 : ℤ) = 0.10 from rfl,
      show Window.get (-99 : ℤ) = 0.12 from rfl,
      show Window.get (-98 : ℤ) = 0.14 from rfl,
      show Window.get (-97 : ℤ) = 0.16 from rfl,
      show Window.get (-96 : ℤ) = 0.18 from rfl,
      show Window.get (-95 : ℤ) = 0.20 from rfl,
      show Window.get (-94 : ℤ) = 0.22 from rfl,
      show Window.get (-93 : ℤ) = 0.24 from rfl,
      show Window.get (-92 : ℤ) = 0.26 from rfl,
      show Window.get (-91 : ℤ) = 0.28 from rfl,
      show Window.get (-90 : ℤ) = 0.30 from rfl,
      show Window.get (-89 : ℤ) = 0.32 from rfl,
      show Window.get (-88 : ℤ) = 0.34 from rfl,
      show Window.get (-87 : ℤ) = 0.36 from rfl,
      show Window.get (-86 : ℤ) = 0.38 from rfl,
      show Window.get (-85 : ℤ) = 0.40 from rfl,
      show Window.get (-84 : ℤ) = 0.42 from rfl,
      show Window.get (-83 : ℤ) = 0.44 from rfl,
      show Window.get (-82 : ℤ) = 0.46 from rfl,
      show Window.get (-81 : ℤ) = 0.48 from rfl,
      show Window.get (-80 : ℤ) = 0.50 from rfl,
      show Window.get (-79 : ℤ) = 0.52 from rfl,
      show Window.get (-78 : ℤ) = 0.54 from rfl,
      show Window.get (-77 : ℤ) = 0.56 from rfl,
      show Window.get (-76 : ℤ) = 0.58 from rfl,
      show Window.get (-75 : ℤ) = 0.60 from rfl,
      show Window.get (-74 : ℤ) = 0.62 from rfl,
      show Window.get (-73 : ℤ) = 0.64 from rfl,
      show Window.get (-72 : ℤ) = 0.66 from rfl,
      show Window.get (-71 : ℤ) = 0.68 from rfl,
      show Window.get (-70 : ℤ) = 0.70 from rfl,
      show Window.get (-69 : ℤ) = 0.72 from rfl,
      show Window.get (-68 : ℤ) = 0.74 from rfl,
      show Window.get (-67 : ℤ) = 0.76 from rfl,
      show Window.get (-66 : ℤ) = 0.78 from rfl,
      show Window.get (-65 : ℤ) = 0.80 from rfl,
      show Window.get (-64 : ℤ) = 0.82 from rfl,
      show Window.get (-63 : ℤ) = 0.84 from rfl,
      show Window.get (-62 : ℤ) = 0.86 from rfl,
      show Window.get (-61 : ℤ) = 0.88 from rfl,
      show Window.get (-60 : ℤ) = 0.90 from rfl,
      show Window.get (-59 : ℤ) = 0.92 from rfl,
      show Window.get (-58 : ℤ) = 0.94 from rfl,
      show Window.get (-57 : ℤ) = 0.96 from rfl,
      show Window.get (-56 : ℤ) = 0.98 from rfl]

/-- C10: for every output sample index n < 160 the weighted-overlap-add
denominator w_s(n)² + w_s(n−160)² of `Unvoiced::get` is strictly positive, so
the combiner never divides by zero. -/
theorem C10_wola_denominator (n : ℕ) (h : n < SAMPLES_PER_FRAME) :
    0 < wolaDenom (n : ℤ) ∧ ((wolaDenom (n : ℤ) : ℝ)) ≠ 0 := by
  have hn : n < 160 := by simpa [SAMPLES_PER_FRAME] using h
  have hpos : 0 < wolaDenom (n : ℤ) := by
    rcases lt_or_le n 56 with h1 | h1
    · apply wolaDenom_pos_left
      rw [window_get_plateau _ (by omega) (by omega)]
      norm_num
    · rcases lt_or_le n 105 with h2 | h2
      · exact wolaDenom_pos_right _ (window_ramp_pos n h1 (by omega))
      · apply wolaDenom_pos_right
        rw [window_get_plateau _ (by omega) (by omega)]
        norm_num
  have h2 : (0 : ℝ) < ((wolaDenom (n : ℤ) : ℚ) : ℝ) := by exact_mod_cast hpos
  exact ⟨hpos, h2.ne'⟩

/-- Witness for C10 at n = 0. -/
theorem C10_wola_denominator_witness :
    0 < SAMPLES_PER_FRAME
    ∧ (0 < wolaDenom ((0 : ℕ) : ℤ) ∧ ((wolaDenom ((0 : ℕ) : ℤ) : ℝ)) ≠ 0) :=
  ⟨by decide, C10_wola_denominator 0 (by decide)⟩

lemma descramble_some (chunks : Chunks) (p : BaseParams) (ws : List ℕ) (mx : ℕ)
    (hK : p.bands ≤ 12)
    (hlen : ws.length = p.harmonics - 1)
    (hsum : ws.sum = 73 - p.bands)
    (hw : ∀ w ∈ ws, w ≤ mx) :
    ∃ amps, descramble chunks p ws mx
        = some (amps, VoiceDecisions.new (ScanSep.new chunks p).voiced p,
            gain_idx chunks (ScanSep.new chunks p).idx_part)
      ∧ amps.length = p.harmonics - 1 := by
  have hscan := scanBits_length chunks (ScanSep.new chunks p).scanned p hK
  obtain ⟨amps, h1, h2⟩ := quantAmps_some
    (scanBits chunks (ScanSep.new chunks p).scanned p) ws mx p hlen
    (by rw [hsum, hscan]) hw
  refine ⟨amps, ?_, h2⟩
  have hd : descramble chunks p ws mx
      = match QuantizedAmplitudes.new (scanBits chunks (ScanSep.new chunks p).scanned p)
          ws mx p with
        | none => none
        | some amps =>
          some (amps, VoiceDecisions.new (ScanSep.new chunks p).voiced p,
            gain_idx chunks (ScanSep.new chunks p).idx_part) := rfl
  rw [hd, h1]

/-- C5: whenever the allocation widths (modelled from the specification: L−1
widths bounded by the maximum width, summing to the 73−K scan budget) match
the frame parameters, the descrambler succeeds: every draw is served and the
trailing assertion that no scan bit remains holds. -/
theorem C5_exact_consumption (chunks : Chunks) (p : BaseParams) (ws : List ℕ) (mx : ℕ)
    (hK : p.bands ≤ 12)
    (hlen : ws.length = p.harmonics - 1)
    (hsum : ws.sum = 73 - p.bands)
    (hw : ∀ w ∈ ws, w ≤ mx) :
    ∃ amps voice gidx, descramble chunks p ws mx = some (amps, voice, gidx)
      ∧ amps.length = p.harmonics - 1 := by
  obtain ⟨amps, h1, h2⟩ := descramble_some chunks p ws mx hK hlen hsum hw
  exact ⟨amps, _, _, h1, h2⟩

/-- Witness for C5 on the repository's own L = 16 descramble test frame with
its published allocation widths. -/
theorem C5_exact_consumption_witness :
    params16.bands ≤ 12
    ∧ tw16.length = params16.harmonics - 1
    ∧ tw16.sum = 73 - params16.bands
    ∧ (∀ w ∈ tw16, w ≤ 6)
    ∧ (∃ amps voice gidx, descramble chunks16 params16 tw16 6 = some (amps, voice, gidx)
        ∧ amps.length = params16.harmonics - 1) :=
  ⟨by decide, by decide, by decide, by decide,
    C5_exact_consumption chunks16 params16 tw16 6 (by decide) (by decide) (by decide)
      (by decide)⟩

/-- C6 (amended): for valid parameters with L ≤ 36 (so that K = ⌈L/3⌉ and no
band is clipped), harmonic l with 1 ≤ l ≤ L is voiced exactly when bit ⌈l/3⌉
of the K-bit band map (band 1 at the MSB) is set; and for every decision set,
harmonics above L — including any forced voiced by smoothing — read false. -/
theorem C6_voicing_map (b0 v l : ℕ) (_hb : b0 ≤ 207)
    (hL : (BaseParams.new b0).harmonics ≤ 36)
    (h1 : 1 ≤ l) (h2 : l ≤ (BaseParams.new b0).harmonics) :
    ((VoiceDecisions.new v (BaseParams.new b0)).is_voiced l
        = v.testBit ((BaseParams.new b0).bands - (l + 2) / 3))
    ∧ (∀ (vd : VoiceDecisions) (j : ℕ), vd.params.harmonics < j →
        vd.is_voiced j = false) := by
  constructor
  · apply is_voiced_new
    · rw [bands_def]
      omega
    · exact h1
    · exact h2
  · intro vd j hj
    exact is_voiced_above vd j hj

/-- Witness for C6 on the L = 16 frame parameters (b₀ = 32) with band map
0b101011 and harmonic 1. -/
theorem C6_voicing_map_witness :
    (32 : ℕ) ≤ 207
    ∧ (BaseParams.new 32).harmonics ≤ 36
    ∧ (1 : ℕ) ≤ 1
    ∧ 1 ≤ (BaseParams.new 32).harmonics
    ∧ (((VoiceDecisions.new 0b101011 (BaseParams.new 32)).is_voiced 1
        = Nat.testBit 0b101011 ((BaseParams.new 32).bands - (1 + 2) / 3))
      ∧ (∀ (vd : VoiceDecisions) (j : ℕ), vd.params.harmonics < j →
          vd.is_voiced j = false)) :=
  ⟨by decide, by rw [harmonics_eq]; decide, by decide, by rw [harmonics_eq]; decide,
    C6_voicing_map 32 0b101011 1 (by decide) (by rw [harmonics_eq]; decide) (by decide)
      (by rw [harmonics_eq]; decide)⟩

/-- C6 counterexample: with b₀ = 207 the parameters are L = 56, K = 12; with
every band bit set, bit ⌈1/3⌉ = 1 of the band map is set, yet the decoder
reports harmonic 1 unvoiced (the widened bitmap only covers 35 harmonic
positions). -/
theorem C6_counterexample :
    (BaseParams.new 207).harmonics = 56
    ∧ (BaseParams.new 207).bands = 12
    ∧ Nat.testBit 0b111111111111 ((BaseParams.new 207).bands - (1 + 2) / 3) = true
    ∧ (VoiceDecisions.new 0b111111111111 (BaseParams.new 207)).is_voiced 1 = false := by
  have hh : (BaseParams.new 207).harmonics = 56 := by rw [harmonics_eq]; decide
  have hbnd : (BaseParams.new 207).bands = 12 := by rw [bands_eq]; decide
  refine ⟨hh, hbnd, ?_, ?_⟩
  · rw [hbnd]
    decide
  · rw [is_voiced_new_congr 0b111111111111 1 (BaseParams.new 207) 56 12 hh hbnd]
    decide

lemma getD_map_range {M : Type} (f : ℕ → M) (d : M) (n i : ℕ) (h : i < n) :
    ((List.range n).map f).getD i d = f i := by
  rw [List.getD_eq_getElem _ _ (by simpa using h)]
  simp

lemma phase_base_formula (params : BaseParams) (prevFund : ℝ) (prevBase : List ℝ)
    (l : ℕ) (h1 : 1 ≤ l) (h2 : l ≤ 56) :
    PhaseBase.get (PhaseBase.new params prevFund prevBase) l
      = PhaseBase.get prevBase l
        + (prevFund + params.fundamental) / 2 * (SAMPLES_PER_FRAME : ℝ) * (l : ℝ) := by
  unfold PhaseBase.new PhaseBase.get
  rw [getD_map_range _ _ _ _ (show l - 1 < MAX_HARMONICS by unfold MAX_HARMONICS; omega),
    show l - 1 + 1 = l from by omega]
  ring

lemma phase_base_defaults_zero (j : ℕ) : PhaseBase.get PhaseBase.defaults j = 0 := by
  unfold PhaseBase.defaults PhaseBase.get
  rcases Nat.lt_or_ge (j - 1) MAX_HARMONICS with h | h
  · rw [List.getD_eq_getElem _ _ (by simpa using h)]
    simp
  · rw [List.getD_eq_default _ _ (by simpa using h)]

lemma phaseLin_get (l : ℕ) (h1 : 1 ≤ l) (h2 : l ≤ 56) :
    PhaseBase.get phaseLin l = (l : ℝ) := by
  unfold phaseLin PhaseBase.get
  rw [getD_map_range _ _ _ _ (show l - 1 < MAX_HARMONICS by unfold MAX_HARMONICS; omega)]
  congr 1
  omega

/-- C9: the phase base update is Ψₗ(t) = Ψₗ(t−1) + ((ω₀⁻+ω₀)/2)·N·l for every
l = 1..56, the initial base is all zero, and with prior Ψₗ = l and the
fundamentals of the repository's phase-base test one update yields
Ψ₁ ≈ 22.5624, Ψ₂ ≈ 45.1248, Ψ₁₆ ≈ 361.00. -/
theorem C9_phase_base (params : BaseParams) (prevFund : ℝ) (prevBase : List ℝ)
    (l : ℕ) (h1 : 1 ≤ l) (h2 : l ≤ 56) :
    PhaseBase.get (PhaseBase.new params prevFund prevBase) l
      = PhaseBase.get prevBase l
        + (prevFund + params.fundamental) / 2 * (SAMPLES_PER_FRAME : ℝ) * (l : ℝ)
    ∧ (∀ j, PhaseBase.get PhaseBase.defaults j = 0)
    ∧ |PhaseBase.get (PhaseBase.new phaseParams phasePrevFund phaseLin) 1 - 22.5624|
        < 0.001
    ∧ |PhaseBase.get (PhaseBase.new phaseParams phasePrevFund phaseLin) 2 - 45.1248|
        < 0.001
    ∧ |PhaseBase.get (PhaseBase.new phaseParams phasePrevFund phaseLin) 16 - 361.00|
        < 0.01 := by
  have hc : ∀ j, 1 ≤ j → j ≤ 56 →
      PhaseBase.get (PhaseBase.new phaseParams phasePrevFund phaseLin) j
        = (j : ℝ) + (phasePrevFund + phaseParams.fundamental) / 2 * 160 * (j : ℝ) := by
    intro j hj1 hj2
    rw [phase_base_formula phaseParams phasePrevFund phaseLin j hj1 hj2,
      phaseLin_get j hj1 hj2]
    norm_num [SAMPLES_PER_FRAME]
  refine ⟨phase_base_formula params prevFund prevBase l h1 h2,
    phase_base_defaults_zero, ?_, ?_, ?_⟩
  · rw [hc 1 (by norm_num) (by norm_num),
      show phaseParams.fundamental = 0.17575344 from rfl,
      show phasePrevFund = 0.0937765407 from rfl, abs_lt]
    constructor <;> push_cast <;> norm_num
  · rw [hc 2 (by norm_num) (by norm_num),
      show phaseParams.fundamental = 0.17575344 from rfl,
      show phasePrevFund = 0.0937765407 from rfl, abs_lt]
    constructor <;> push_cast <;> norm_num
  · rw [hc 16 (by norm_num) (by norm_num),
      show phaseParams.fundamental = 0.17575344 from rfl,
      show phasePrevFund = 0.0937765407 from rfl, abs_lt]
    constructor <;> push_cast <;> norm_num

/-- Witness for C9 at l = 1 with the zero base. -/
theorem C9_phase_base_witness :
    (1 : ℕ) ≤ 1 ∧ (1 : ℕ) ≤ 56
    ∧ (PhaseBase.get (PhaseBase.new phaseParams 0 PhaseBase.defaults) 1
        = PhaseBase.get PhaseBase.defaults 1
          + (0 + phaseParams.fundamental) / 2 * (SAMPLES_PER_FRAME : ℝ) * ((1 : ℕ) : ℝ)
      ∧ (∀ j, PhaseBase.get PhaseBase.defaults j = 0)
      ∧ |PhaseBase.get (PhaseBase.new phaseParams phasePrevFund phaseLin) 1 - 22.5624|
          < 0.001
      ∧ |PhaseBase.get (PhaseBase.new phaseParams phasePrevFund phaseLin) 2 - 45.1248|
          < 0.001
      ∧ |PhaseBase.get (PhaseBase.new phaseParams phasePrevFund phaseLin) 16 - 361.00|
          < 0.01) :=
  ⟨le_refl 1, by norm_num, C9_phase_base phaseParams 0 PhaseBase.defaults 1 (le_refl 1)
    (by norm_num)⟩

lemma weighted_pos (spectrals : List ℝ) (fen : FrameEnergy) (params : BaseParams)
    (hpos : ∀ m ∈ spectrals, 0 < m) :
    ∀ m ∈ EnhancedSpectrals.weighted spectrals fen params, 0 < m := by
  intro m hm
  simp only [EnhancedSpectrals.weighted, List.mem_map] at hm
  obtain ⟨q, hq, rfl⟩ := hm
  have hq2 : q.2 ∈ spectrals := by
    obtain ⟨i, x⟩ := q
    obtain ⟨hi, hx⟩ := List.mem_enum hq
    rw [hx]
    exact List.getElem_mem hi
  have h0 := hpos _ hq2
  by_cases hc : 8 * (q.1 + 1) ≤ params.harmonics
  · simpa [hc] using h0
  · simp only [if_neg hc]
    refine mul_pos h0 (lt_of_lt_of_le (by norm_num) (le_min (le_max_right _ _) ?_))
    norm_num

lemma sum_sq_pos (l : List ℝ) (hne : l ≠ []) (hpos : ∀ m ∈ l, 0 < m) :
    0 < (l.map fun m => m ^ 2).sum := by
  apply List.sum_pos
  · intro x hx
    obtain ⟨m, hm, rfl⟩ := List.mem_map.mp hx
    exact pow_pos (hpos m hm) 2
  · simpa using hne

/-- C8: with positive input spectrals, the enhanced spectral amplitudes after
the final rescale preserve total energy exactly over the reals:
Σ M̄ₗ² = R_M0. -/
theorem C8_energy_preserved (spectrals : List ℝ) (fen : FrameEnergy)
    (params : BaseParams) (hne : spectrals ≠ []) (hpos : ∀ m ∈ spectrals, 0 < m)
    (hE : 0 ≤ fen.energy) :
    ((EnhancedSpectrals.new spectrals fen params).map fun m => m ^ 2).sum
      = fen.energy := by
  have hwpos := weighted_pos spectrals fen params hpos
  have hwne : EnhancedSpectrals.weighted spectrals fen params ≠ [] := by
    simp only [EnhancedSpectrals.weighted, ne_eq, List.map_eq_nil_iff, List.enum_eq_nil]
    exact hne
  simp only [EnhancedSpectrals.new]
  set w := EnhancedSpectrals.weighted spectrals fen params with hw
  have hS : 0 < (w.map fun m => m ^ 2).sum := sum_sq_pos w hwne hwpos
  rw [List.map_map]
  have hfun : ((fun m => m ^ 2) ∘ fun m =>
        m * Real.sqrt (fen.energy / (w.map fun m => m ^ 2).sum))
      = fun m => m ^ 2 * Real.sqrt (fen.energy / (w.map fun m => m ^ 2).sum) ^ 2 := by
    funext m
    simp only [Function.comp]
    ring
  rw [hfun, List.sum_map_mul_right, Real.sq_sqrt (div_nonneg hE hS.le), mul_comm,
    div_mul_cancel₀ _ hS.ne']

/-- Witness for C8 on the one-harmonic spectrals [1] with R_M0 = 4. -/
theorem C8_energy_preserved_witness :
    ([(1 : ℝ)] ≠ [] ∧ (∀ m ∈ [(1 : ℝ)], 0 < m)
      ∧ 0 ≤ (FrameEnergy.mk 4 0 75000).energy)
    ∧ ((EnhancedSpectrals.new [(1 : ℝ)] (FrameEnergy.mk 4 0 75000)
          { fundamental := 0, harmonics := 9, bands := 3 }).map fun m => m ^ 2).sum
        = (FrameEnergy.mk 4 0 75000).energy :=
  ⟨⟨by simp, by
      intro m hm
      rw [List.mem_singleton] at hm
      rw [hm]
      norm_num, by norm_num⟩,
    C8_energy_preserved [(1 : ℝ)] (FrameEnergy.mk 4 0 75000)
      { fundamental := 0, harmonics := 9, bands := 3 } (by simp)
      (by
        intro m hm
        rw [List.mem_singleton] at hm
        rw [hm]
        norm_num)
      (by norm_num)⟩

lemma spectrals_get_eq (prevS : List ℝ) (h : prevS ≠ []) (k : ℕ) :
    Spectrals.get prevS k = some (specRead prevS k) := by
  unfold Spectrals.get specRead
  split_ifs with h0 hlen
  · rfl
  · obtain ⟨x, hx⟩ := Option.isSome_iff_exists.mp (List.getLast?_isSome.mpr h)
    rw [hx, List.getLastD_eq_getLast?, hx]
    rfl
  · rw [List.getElem?_eq_getElem (show k - 1 < prevS.length by omega),
      List.getD_eq_getElem _ _ (show k - 1 < prevS.length by omega)]

lemma spectrals_term_eq (prevS : List ℝ) (h : prevS ≠ []) (scale : ℝ) (l : ℕ) :
    Spectrals.term prevS scale l = some (specBracket prevS scale l) := by
  simp only [Spectrals.term, specBracket, spectrals_get_eq prevS h,
    Option.bind_eq_bind, Option.some_bind, Option.pure_def]

lemma mapM_some_fun {α β : Type} (g : α → β) (l : List α) :
    l.mapM (fun a => some (g a)) = some (l.map g) := by
  induction l with
  | nil => rfl
  | cons a t ih =>
    rw [List.mapM_cons, ih]
    rfl

lemma spectrals_new_eq (coefs : ℕ → ℝ) (params : BaseParams) (prevS : List ℝ)
    (prevL : ℕ) (h : prevS ≠ []) :
    Spectrals.new coefs params prevS prevL
      = some ((List.range params.harmonics).map fun i =>
          (2 : ℝ) ^ (coefs (i + 1)
            + min (max (0.03 * (params.harmonics : ℝ) - 0.05) 0.4) 0.7
              * (specBracket prevS ((prevL : ℝ) / (params.harmonics : ℝ)) (i + 1)
                - ((List.range params.harmonics).map fun j =>
                    specBracket prevS ((prevL : ℝ) / (params.harmonics : ℝ)) (j + 1)).sum
                  / (params.harmonics : ℝ)))) := by
  simp only [Spectrals.new, spectrals_term_eq prevS h, Option.bind_eq_bind,
    Option.some_bind, Option.pure_def, mapM_some_fun]

lemma specRead_replicate_one (n k : ℕ) : specRead (List.replicate n (1 : ℝ)) k = 1 := by
  unfold specRead
  split_ifs with h0 hlen
  · rfl
  · rw [List.getLastD_eq_getLast?, List.getLast?_replicate]
    rcases Nat.eq_zero_or_pos n with hn | hn
    · rw [if_pos hn]
      rfl
    · rw [if_neg (by omega)]
      rfl
  · rw [List.getD_eq_getElem _ _ (by simp at hlen ⊢; omega), List.getElem_replicate]

/-- C7: spectral-amplitude prediction matches the specification's formula
(with its out-of-bounds conventions), and with the default all-ones previous
spectrals it reduces to M̃ₗ = 2^Tₗ. -/
theorem C7_spectral_prediction (coefs : ℕ → ℝ) (params : BaseParams) (prevS : List ℝ)
    (prevL : ℕ) (hne : prevS ≠ []) :
    ∃ s, Spectrals.new coefs params prevS prevL = some s
      ∧ s.length = params.harmonics
      ∧ (∀ l, 1 ≤ l → l ≤ params.harmonics →
          s.getD (l - 1) 0 = predictedSpectral coefs params prevS prevL l)
      ∧ (prevS = Spectrals.defaults →
          ∀ l, 1 ≤ l → l ≤ params.harmonics →
            s.getD (l - 1) 0 = (2 : ℝ) ^ coefs l) := by
  refine ⟨_, spectrals_new_eq coefs params prevS prevL hne, by simp, ?_, ?_⟩
  · intro l hl1 hl2
    rw [getD_map_range _ _ _ _ (by omega), show l - 1 + 1 = l from by omega]
    unfold predictedSpectral
    congr 1
    rw [sum_map_range]
    ring
  · intro hdef l hl1 hl2
    rw [getD_map_range _ _ _ _ (by omega), show l - 1 + 1 = l from by omega]
    have hbr : ∀ j, specBracket prevS ((prevL : ℝ) / (params.harmonics : ℝ)) j = 0 := by
      intro j
      rw [hdef]
      unfold Spectrals.defaults
      simp [specBracket, specRead_replicate_one, Real.logb_one]
    simp only [hbr]
    congr 1
    simp

/-- Witness for C7 on a one-element previous frame. -/
theorem C7_spectral_prediction_witness :
    [(1 : ℝ)] ≠ []
    ∧ (∃ s, Spectrals.new (fun _ => 0) { fundamental := 0, harmonics := 9, bands := 3 }
          [(1 : ℝ)] 30 = some s
        ∧ s.length = ({ fundamental := 0, harmonics := 9, bands := 3 } : BaseParams).harmonics
        ∧ (∀ l, 1 ≤ l →
            l ≤ ({ fundamental := 0, harmonics := 9, bands := 3 } : BaseParams).harmonics →
            s.getD (l - 1) 0 = predictedSpectral (fun _ => 0)
              { fundamental := 0, harmonics := 9, bands := 3 } [(1 : ℝ)] 30 l)
        ∧ ([(1 : ℝ)] = Spectrals.defaults →
            ∀ l, 1 ≤ l →
              l ≤ ({ fundamental := 0, harmonics := 9, bands := 3 } : BaseParams).harmonics →
              s.getD (l - 1) 0 = (2 : ℝ) ^ (fun _ => (0 : ℝ)) l)) :=
  ⟨by simp, C7_spectral_prediction (fun _ => 0)
    { fundamental := 0, harmonics := 9, bands := 3 } [(1 : ℝ)] 30 (by simp)⟩

/-- C2 counterexample: on a silence-bootstrap frame with one corrected error
the decoder leaves the whole previous state — `err_rate` included — untouched,
while the claimed tracking update would move it to 0.000365. -/
theorem C2_counterexample :
    decode allocsTriv gainsTriv rngUZero rngPZero silChunks silErrors PrevFrame.defaults
        = some (silence_frame, PrevFrame.defaults)
    ∧ PrevFrame.defaults.err_rate = 0
    ∧ (0 : ℚ) ≠ 0.95 * PrevFrame.defaults.err_rate
        + 0.000365 * (((List.ofFn silErrors).sum : ℕ) : ℚ) := by
  refine ⟨?_, rfl, ?_⟩
  · have h : Bootstrap.new silChunks = Bootstrap.Silence := by decide
    simp only [decode, h]
  · have h0 : PrevFrame.defaults.err_rate = 0 := rfl
    have hsum : (List.ofFn silErrors).sum = 1 := by decide
    rw [h0, hsum]
    norm_num

/-- C2 (amended): on both silence paths — silence bootstrap, or a frame that
passes the repeat check but trips the mute check — the decoder emits 160 zero
samples and returns the previous state unchanged; in particular `err_rate` is
preserved, not re-tracked from the current error counts. -/
theorem C2_silence_preserves_state (allocsFn : ℕ → List ℕ × ℕ)
    (gainsFn : ℕ → List ℕ → BaseParams → ℕ → ℝ) (rngU : ℤ → ℝ × ℝ) (rngP : ℕ → ℝ)
    (chunks : Chunks) (errorCounts : ErrorCounts) (prev : PrevFrame)
    (h : Bootstrap.new chunks = Bootstrap.Silence
      ∨ ∃ p, Bootstrap.new chunks = Bootstrap.Period p
          ∧ should_repeat (EnhanceErrors.new errorCounts prev.err_rate) = false
          ∧ should_mute (EnhanceErrors.new errorCounts prev.err_rate) = true) :
    decode allocsFn gainsFn rngU rngP chunks errorCounts prev
        = some (silence_frame, prev)
    ∧ silence_frame.length = SAMPLES_PER_FRAME
    ∧ (∀ x ∈ silence_frame, x = 0) := by
  refine ⟨?_, by simp [silence_frame], ?_⟩
  · rcases h with h | ⟨p, hp, hr, hm⟩
    · simp only [decode, h]
    · simp only [decode, hp, hr, hm]
      simp
  · intro x hx
    simp only [silence_frame, List.mem_map] at hx
    obtain ⟨_, _, hx⟩ := hx
    exact hx.symm

/-- Witness for C2 on the silence-bootstrap frame. -/
theorem C2_silence_preserves_state_witness :
    (Bootstrap.new silChunks = Bootstrap.Silence
      ∨ ∃ p, Bootstrap.new silChunks = Bootstrap.Period p
          ∧ should_repeat (EnhanceErrors.new silErrors PrevFrame.defaults.err_rate) = false
          ∧ should_mute (EnhanceErrors.new silErrors PrevFrame.defaults.err_rate) = true)
    ∧ (decode allocsTriv gainsTriv rngUZero rngPZero silChunks silErrors PrevFrame.defaults
          = some (silence_frame, PrevFrame.defaults)
      ∧ silence_frame.length = SAMPLES_PER_FRAME
      ∧ (∀ x ∈ silence_frame, x = 0)) :=
  ⟨Or.inl (by decide),
    C2_silence_preserves_state allocsTriv gainsTriv rngUZero rngPZero silChunks silErrors
      PrevFrame.defaults (Or.inl (by decide))⟩

theorem decode_normal_eq (allocsFn : ℕ → List ℕ × ℕ)
    (gainsFn : ℕ → List ℕ → BaseParams → ℕ → ℝ) (rngU : ℤ → ℝ × ℝ) (rngP : ℕ → ℝ)
    (chunks : Chunks) (errorCounts : ErrorCounts) (prev : PrevFrame)
    (p : ℕ) (amps : List ℕ) (voice : VoiceDecisions) (gainIdx : ℕ) (sp : List ℝ)
    (hB : Bootstrap.new chunks = Bootstrap.Period p)
    (hrep : should_repeat (EnhanceErrors.new errorCounts prev.err_rate) = false)
    (hmute : should_mute (EnhanceErrors.new errorCounts prev.err_rate) = false)
    (hdesc : descramble chunks (BaseParams.new p)
        (allocsFn (BaseParams.new p).harmonics).1
        (allocsFn (BaseParams.new p).harmonics).2 = some (amps, voice, gainIdx))
    (hspect : Spectrals.new
        (fun l => (Coefficients.new (gainsFn gainIdx amps (BaseParams.new p))
          amps (allocsFn (BaseParams.new p).harmonics).1 (BaseParams.new p)).getD (l - 1) 0)
        (BaseParams.new p) prev.spectrals prev.params.harmonics = some sp) :
    decode allocsFn gainsFn rngU rngP chunks errorCounts prev
      = some (decodeNormal rngU rngP errorCounts prev p voice sp) := by
  simp only [decode, hB, hrep, hmute, hdesc, hspect, decodeNormal]
  simp

/-- C1: under the specification's allocation-table budget (modelled, since
allocs.rs is absent) the decode operation returns normally on every path —
normal synthesis, invalid bootstrap, silence bootstrap, repeat-by-FEC, and
mute-by-FEC — and always yields exactly 160 samples, never surfacing an
error; the state invariant that the saved spectrals are nonempty is
maintained. -/
theorem C1_decode_total (allocsFn : ℕ → List ℕ × ℕ)
    (gainsFn : ℕ → List ℕ → BaseParams → ℕ → ℝ) (rngU : ℤ → ℝ × ℝ) (rngP : ℕ → ℝ)
    (chunks : Chunks) (errorCounts : ErrorCounts) (prev : PrevFrame)
    (halloc : ∀ L, 9 ≤ L → L ≤ 56 →
      (allocsFn L).1.length = L - 1
      ∧ (allocsFn L).1.sum = 73 - min ((L + 2) / 3) 12
      ∧ ∀ w ∈ (allocsFn L).1, w ≤ (allocsFn L).2)
    (hprev : prev.spectrals ≠ []) :
    ∃ buf prev', decode allocsFn gainsFn rngU rngP chunks errorCounts prev
        = some (buf, prev')
      ∧ buf.length = SAMPLES_PER_FRAME
      ∧ prev'.spectrals ≠ [] := by
  rcases hB : Bootstrap.new chunks with p | - | -
  case Silence =>
    exact ⟨silence_frame, prev, by simp only [decode, hB], by simp [silence_frame], hprev⟩
  case Invalid =>
    exact ⟨repeat_frame rngU rngP prev, prev, by simp only [decode, hB],
      by simp [repeat_frame], hprev⟩
  case Period =>
    have hp207 : p ≤ 207 := by
      simp only [Bootstrap.new] at hB
      split_ifs at hB with h1 h2
      cases hB
      exact h1
    rcases hrep : should_repeat (EnhanceErrors.new errorCounts prev.err_rate)
      with - | -
    case true =>
      refine ⟨repeat_frame rngU rngP prev, prev, ?_, by simp [repeat_frame], hprev⟩
      simp only [decode, hB, hrep]
      simp
    case false =>
      rcases hmute : should_mute (EnhanceErrors.new errorCounts prev.err_rate)
        with - | -
      case true =>
        refine ⟨silence_frame, prev, ?_, by simp [silence_frame], hprev⟩
        simp only [decode, hB, hrep, hmute]
        simp
      case false =>
        have hL : 9 ≤ (BaseParams.new p).harmonics ∧ (BaseParams.new p).harmonics ≤ 56 := by
          rw [harmonics_eq]
          have hall : ∀ b, b < 208 → 9 ≤ harmonicsNat b ∧ harmonicsNat b ≤ 56 := by decide
          exact hall p (by omega)
        have hK12 : (BaseParams.new p).bands ≤ 12 := by
          rw [bands_def]
          omega
        obtain ⟨hlen, hsum, hmax⟩ := halloc (BaseParams.new p).harmonics hL.1 hL.2
        have hsum' : (allocsFn (BaseParams.new p).harmonics).1.sum
            = 73 - (BaseParams.new p).bands := by
          rw [bands_def]
          exact hsum
        obtain ⟨amps, hdesc, hampslen⟩ := descramble_some chunks (BaseParams.new p)
          (allocsFn (BaseParams.new p).harmonics).1
          (allocsFn (BaseParams.new p).harmonics).2 hK12 hlen hsum' hmax
        have hspect := spectrals_new_eq
          (fun l => (Coefficients.new
            (gainsFn (gain_idx chunks (ScanSep.new chunks (BaseParams.new p)).idx_part)
              amps (BaseParams.new p))
            amps (allocsFn (BaseParams.new p).harmonics).1 (BaseParams.new p)).getD (l - 1) 0)
          (BaseParams.new p) prev.spectrals prev.params.harmonics hprev
        have heq := decode_normal_eq allocsFn gainsFn rngU rngP chunks errorCounts prev p amps
          (VoiceDecisions.new (ScanSep.new chunks (BaseParams.new p)).voiced (BaseParams.new p))
          (gain_idx chunks (ScanSep.new chunks (BaseParams.new p)).idx_part) _
          hB hrep hmute hdesc hspect
        refine ⟨_, _, heq, ?_, ?_⟩
        · simp only [decodeNormal]
          simp
        · simp only [decodeNormal]
          simp only [ne_eq, List.map_eq_nil_iff, List.range_eq_nil]
          omega

/-- Witness for C1 on the repository's own 16-harmonic descramble frame with
one corrected error, which takes the normal synthesis path. -/
theorem C1_decode_total_witness :
    ((∀ L, 9 ≤ L → L ≤ 56 →
        (allocsWitness L).1.length = L - 1
        ∧ (allocsWitness L).1.sum = 73 - min ((L + 2) / 3) 12
        ∧ ∀ w ∈ (allocsWitness L).1, w ≤ (allocsWitness L).2)
      ∧ PrevFrame.defaults.spectrals ≠ [])
    ∧ ∃ buf prev', decode allocsWitness gainsTriv rngUZero rngPZero chunks16 silErrors
          PrevFrame.defaults = some (buf, prev')
        ∧ buf.length = SAMPLES_PER_FRAME
        ∧ prev'.spectrals ≠ [] := by
  have halloc : ∀ L, 9 ≤ L → L ≤ 56 →
      (allocsWitness L).1.length = L - 1
      ∧ (allocsWitness L).1.sum = 73 - min ((L + 2) / 3) 12
      ∧ ∀ w ∈ (allocsWitness L).1, w ≤ (allocsWitness L).2 := by
    have h : ∀ L, L < 57 → 9 ≤ L →
        (allocsWitness L).1.length = L - 1
        ∧ (allocsWitness L).1.sum = 73 - min ((L + 2) / 3) 12
        ∧ ∀ w ∈ (allocsWitness L).1, w ≤ (allocsWitness L).2 := by decide
    exact fun L h1 h2 => h L (by omega) h1
  have hprev : PrevFrame.defaults.spectrals ≠ [] := by
    simp [PrevFrame.defaults, Spectrals.defaults, MAX_HARMONICS]
  exact ⟨⟨halloc, hprev⟩,
    C1_decode_total allocsWitness gainsTriv rngUZero rngPZero chunks16 silErrors
      PrevFrame.defaults halloc hprev⟩

end Imbe
